import Mathlib

/-!
Verification of the teamsToRAG core against its specification.

The development shallowly embeds the incremental-sync and merge engine of
src/teamsClient.js (fetch loop, header rewriting, date-grouped rendering,
export-header parsing) and the chunking / extraction pipeline of
src/ragOptimizer.js (date-section splitter, response unfencing, per-chunk
aggregation).  Strings are `List Char`; file writes are returned instead of
performed (`none` = no write); the remote paginated listing is the list of
pages the endpoint would deliver; the host JavaScript `Date` is modelled by
`JSDate` below.  Message rendering (`formatMessage`) is kept as an explicit
function parameter `fmt`, since every property proved here holds for any
rendering of a single message.
-/

/-- A remote Teams message, reduced to the fields the fetch and merge
engines inspect: an identifier and its `createdDateTime` instant
(epoch milliseconds). -/
structure Msg where
  id : Nat
  created : Nat
deriving DecidableEq

/-- Model of a JavaScript `Date` value: `some t` is a valid instant,
`none` is the Invalid Date object.  Both are objects, hence truthy in the
host language; `toISOString` throws exactly on the invalid one. -/
abbrev JSDate := Option Nat

/-- The page-accumulation loop of `fetchChatMessages` and
`fetchChannelMessages` (duplicated verbatim in src/teamsClient.js):
push every delivered batch, count fetched messages and pages, break only
when the optional `maxMessages` cap is reached (JS truthiness: a cap of 0
is falsy, meaning no cap).  Returns the accumulated newest-first messages
and the number of pages requested. -/
def fetchGo (maxMessages : Option Nat) : List (List Msg) → List Msg → Nat → Nat → List Msg × Nat
  | [], messages, _, pageCount => (messages, pageCount)
  | batch :: rest, messages, fetchedCount, pageCount =>
    let messages' := messages ++ batch
    let fetchedCount' := fetchedCount + batch.length
    let pageCount' := pageCount + 1
    match maxMessages with
    | some m =>
      if m ≠ 0 ∧ m ≤ fetchedCount' then (messages', pageCount')
      else fetchGo maxMessages rest messages' fetchedCount' pageCount'
    | none => fetchGo maxMessages rest messages' fetchedCount' pageCount'

/-- The final trim of both fetch functions: after reversing to
chronological order, `messages.slice(-maxMessages)` keeps the last
`maxMessages` elements whenever the cap is truthy and exceeded. -/
def truncateToMax (maxMessages : Option Nat) (messages : List Msg) : List Msg :=
  match maxMessages with
  | some m => if m ≠ 0 ∧ m < messages.length then messages.drop (messages.length - m) else messages
  | none => messages

/-- `fetchChannelMessages` (src/teamsClient.js:86).  When `sinceDate` is
present the source first calls `sinceDate.toISOString()` to build a
server-side `$filter` query parameter; on an Invalid Date this throws
(RangeError), modelled as the error branch.  Otherwise the loop
accumulates every delivered page unchanged — the source performs no
client-side filtering of batches against `sinceDate`. -/
def fetchChannelMessages (pages : List (List Msg)) (maxMessages : Option Nat)
    (sinceDate : Option JSDate) : Except String (List Msg × Nat) :=
  match sinceDate with
  | some none => Except.error "Invalid time value"
  | _ =>
    let r := fetchGo maxMessages pages [] 0 0
    Except.ok (truncateToMax maxMessages r.1.reverse, r.2)

/-- `fetchChatMessages` (src/teamsClient.js:13): identical pagination,
reversal and trim logic as the channel variant (the source duplicates the
loop; only the chat variant lacks the page counter). -/
def fetchChatMessages (pages : List (List Msg)) (maxMessages : Option Nat)
    (sinceDate : Option JSDate) : Except String (List Msg) :=
  match sinceDate with
  | some none => Except.error "Invalid time value"
  | _ => Except.ok (truncateToMax maxMessages (fetchGo maxMessages pages [] 0 0).1.reverse)

/-- JavaScript `\s` (ASCII part): space, tab, newline, carriage return,
vertical tab, form feed. -/
def isWsC (c : Char) : Bool :=
  c = ' ' || c = '\t' || c = '\n' || c = '\r' || c = '\x0b' || c = '\x0c'

/-- JavaScript `\d`. -/
def isDigitC (c : Char) : Bool := 48 ≤ c.toNat && c.toNat ≤ 57

/-- Characters the JavaScript `.` class excludes (line terminators). -/
def isNlC (c : Char) : Bool := c = '\n' || c = '\r'

/-- Structural worker for `natDigits`: `fuel` bounds the recursion depth
(any fuel above the argument suffices). -/
def natDigitsGo : Nat → Nat → List Char
  | 0, _ => []
  | fuel + 1, n =>
    if n < 10 then [Char.ofNat (48 + n)]
    else natDigitsGo fuel (n / 10) ++ [Char.ofNat (48 + n % 10)]

/-- Decimal digits of a natural number, as the host's string
interpolation renders it. -/
def natDigits (n : Nat) : List Char := natDigitsGo (n + 1) n

/-- `parseInt` on a run of decimal digits. -/
def digitsToNat (ds : List Char) : Nat :=
  ds.foldl (fun acc c => acc * 10 + (c.toNat - 48)) 0

def litTotal : List Char := "**Total Messages:**".data

def litLastRun : List Char := "**Last Run:**".data

def litLastRunLocal : List Char := "**Last Run (Local):**".data

/-- Attempt to match the regular expression
`\*\*Total Messages:\*\*\s+(\d+)` at the head of `cs`; on success returns
the captured count and the length of the whole match. -/
def tryTotalAt (cs : List Char) : Option (Nat × Nat) :=
  if cs.take 19 = litTotal then
    let rest := cs.drop 19
    let w := rest.takeWhile isWsC
    if w.length = 0 then none
    else
      let d := (rest.drop w.length).takeWhile isDigitC
      if d.length = 0 then none
      else some (digitsToNat d, 19 + w.length + d.length)
  else none

/-- Attempt to match `lit` followed by `\s+` and a nonempty `.+` run at
the head of `cs` (the shape of the Last Run field patterns), returning the
length of the whole match.  The branch where the `.+` region after the
greedy whitespace run is empty models the engine's backtracking: the run
can still succeed by handing one trailing non-line-terminator whitespace
character to `.+`. -/
def tryFieldAt (lit : List Char) (cs : List Char) : Option Nat :=
  if cs.take lit.length = lit then
    let rest := cs.drop lit.length
    let w := rest.takeWhile isWsC
    if w.length = 0 then none
    else
      let t := (rest.drop w.length).takeWhile (fun c => !(isNlC c))
      if t.length ≠ 0 then some (lit.length + w.length + t.length)
      else
        let k := (w.reverse.takeWhile isNlC).length
        if 2 ≤ w.length - k then some (lit.length + (w.length - k)) else none
  else none

/-- Like `tryFieldAt` but returns the text captured by the `(.+)` group. -/
def tryCapAt (lit : List Char) (cs : List Char) : Option (List Char) :=
  if cs.take lit.length = lit then
    let rest := cs.drop lit.length
    let w := rest.takeWhile isWsC
    if w.length = 0 then none
    else
      let t := (rest.drop w.length).takeWhile (fun c => !(isNlC c))
      if t.length ≠ 0 then some t
      else
        let k := (w.reverse.takeWhile isNlC).length
        if 2 ≤ w.length - k then some ((w.drop (w.length - k - 1)).take 1) else none
  else none

/-- Left-to-right scan for the first position where `tryAt` matches, the
search order of an unanchored regular expression.  Returns the text before
the match, the match value, and the text after the match. -/
def scanFind {A : Type} (tryAt : List Char → Option (A × Nat)) : List Char → Option (List Char × A × List Char)
  | [] => none
  | c :: cs =>
    match tryAt (c :: cs) with
    | some (a, len) => some ([], a, (c :: cs).drop len)
    | none =>
      match scanFind tryAt cs with
      | some (p, a, s) => some (c :: p, a, s)
      | none => none

/-- First match of the Total Messages pattern in `cs`:
prefix before the match, captured count, text after the match. -/
def findTotal (cs : List Char) : Option (List Char × Nat × List Char) :=
  scanFind tryTotalAt cs

/-- `content.match` for the Total Messages pattern: just the count. -/
def readTotal (cs : List Char) : Option Nat :=
  (findTotal cs).map (fun x => x.2.1)

/-- The replacement text `**Total Messages:** n`. -/
def newTotalField (n : Nat) : List Char := litTotal ++ ' ' :: natDigits n

/-- First match of a `lit \s+.+` field pattern in `cs`. -/
def findField (lit : List Char) (cs : List Char) : Option (List Char × Unit × List Char) :=
  scanFind (fun t => (tryFieldAt lit t).map (fun len => ((), len))) cs

/-- `String.replace` with a non-global regular expression built from
`tryFieldAt lit`: rewrite the first match to `repl`, or return the string
unchanged when there is no match. -/
def replaceField (lit : List Char) (repl : List Char) (cs : List Char) : List Char :=
  match findField lit cs with
  | some (p, _, s) => p ++ repl ++ s
  | none => cs

/-- True when the list does not start with a decimal digit (so a digit
run ending just before it is maximal). -/
def headNonDigit : List Char → Bool
  | [] => true
  | c :: _ => !(isDigitC c)

/-- The grouping object of `generateGroupedByDate`
(src teamsClient.js / ragGenerator part, line 289): an insertion-ordered
association list from locale date string to (the full instant of the first
message that established the group, the group's messages in arrival
order). -/
def addToGroups (dateOf : Nat → List Char) (m : Msg) : List (List Char × Nat × List Msg) → List (List Char × Nat × List Msg)
  | [] => [(dateOf m.created, m.created, [m])]
  | g :: gs =>
    if g.1 = dateOf m.created then (g.1, g.2.1, g.2.2 ++ [m]) :: gs
    else g :: addToGroups dateOf m gs

def buildGroups (dateOf : Nat → List Char) (messages : List Msg) : List (List Char × Nat × List Msg) :=
  messages.foldl (fun acc m => addToGroups dateOf m acc) []

/-- The sort key of `sortedDates`: the comparator
`dateObjects[a] - dateObjects[b]` orders date keys by the stored
first-established instant, ascending. -/
def secLe (a b : List Char × Nat × List Msg) : Prop := a.2.1 ≤ b.2.1

instance : DecidableRel secLe := fun a b => Nat.decLe a.2.1 b.2.1

instance : IsTotal (List Char × Nat × List Msg) secLe := ⟨fun a b => Nat.le_total a.2.1 b.2.1⟩

instance : IsTrans (List Char × Nat × List Msg) secLe := ⟨fun _ _ _ => Nat.le_trans⟩

/-- `Object.keys(grouped).sort(comparator)`: the host's stable ascending
sort.  The established instants of distinct groups are pairwise distinct
(they determine the group key), so any sorted permutation — here an
insertion sort — is the host's result. -/
def sortedSections (dateOf : Nat → List Char) (messages : List Msg) : List (List Char × Nat × List Msg) :=
  List.insertionSort secLe (buildGroups dateOf messages)

/-- `parts.join` with the newline separator. -/
def joinNl (parts : List (List Char)) : List Char := List.intercalate ['\n'] parts

/-- `generateGroupedByDate(messages, memberMap, includeMetadata)`: one
`## date` heading per section in sorted order, each message rendered by
`fmt` (the source's `formatMessage` with its memberMap and timestamp
options), and an empty part closing each section; all joined by newlines. -/
def generateGroupedByDate (dateOf : Nat → List Char) (fmt : Msg → List Char) (messages : List Msg) : List Char :=
  let parts := (sortedSections dateOf messages).foldr
    (fun sec acc => ("## ".data ++ sec.1 ++ ['\n']) :: (sec.2.2.map fmt ++ ([] :: acc))) []
  joinNl parts

/-- `generateSequential(messages, memberMap, includeMetadata)`. -/
def generateSequential (fmt : Msg → List Char) (messages : List Msg) : List Char :=
  joinNl ("## Chat Messages\n".data :: messages.map fmt)

/-- Number of rendered message blocks `generateGroupedByDate` emits: one
`fmt` part per message of each section. -/
def sectionMsgCounts (dateOf : Nat → List Char) (messages : List Msg) : Nat :=
  ((sortedSections dateOf messages).map (fun s => s.2.2.length)).sum

/-- `appendMessagesToExport(outputPath, newMessages, memberMap,
includeMetadata, groupByDate)` (src teamsClient.js / ragGenerator part,
line 496).  The file system is made explicit: the first component is the
content written back (`none` when the function returns before writing),
the second is the returned count.  `nowIso`/`nowLoc` are the serialized
current instant. -/
def appendMessagesToExport (oldContent : List Char) (newMessages : List Msg)
    (dateOf : Nat → List Char) (fmt : Msg → List Char)
    (nowIso nowLoc : List Char) (groupByDate : Bool) : Option (List Char) × Nat :=
  if newMessages.length = 0 then (none, 0)
  else
    let c1 :=
      match findTotal oldContent with
      | some (p, k, s) => p ++ newTotalField (k + newMessages.length) ++ s
      | none => oldContent
    let c2 := replaceField litLastRun (litLastRun ++ ' ' :: nowIso) c1
    let c3 := replaceField litLastRunLocal (litLastRunLocal ++ ' ' :: nowLoc) c2
    let newContent :=
      if groupByDate then generateGroupedByDate dateOf fmt newMessages
      else generateSequential fmt newMessages
    (some (c3 ++ '\n' :: newContent), newMessages.length)

/-- One match of the date-section marker `^## \d+\/\d+\/\d+$` starting at
the head of `cs` (`$` asserting a following newline or the end of input). -/
def markerAt : List Char → Bool
  | '#' :: '#' :: ' ' :: r =>
    let d1 := r.takeWhile isDigitC
    if d1.length = 0 then false
    else
      match r.drop d1.length with
      | '/' :: r2 =>
        let d2 := r2.takeWhile isDigitC
        if d2.length = 0 then false
        else
          match r2.drop d2.length with
          | '/' :: r3 =>
            let d3 := r3.takeWhile isDigitC
            if d3.length = 0 then false
            else
              match r3.drop d3.length with
              | [] => true
              | c :: _ => c = '\n'
          | _ => false
      | _ => false
  | _ => false

/-- Split off the text before the first marker match (`atStart` tracks the
multiline `^` assertion).  `none` when the document has no marker. -/
def firstMarkerSplit : Bool → List Char → Option (List Char × List Char)
  | _, [] => none
  | atStart, c :: cs =>
    if atStart && markerAt (c :: cs) then some ([], c :: cs)
    else
      match firstMarkerSplit (c = '\n') cs with
      | some (p, r) => some (c :: p, r)
      | none => none

/-- Cut the text from the first marker onward at every further marker
match; `cur` is the reversed text of the section being accumulated. -/
def secGo : List Char → Bool → List Char → List (List Char)
  | cur, _, [] => [cur.reverse]
  | cur, atStart, c :: cs =>
    if atStart && markerAt (c :: cs) then cur.reverse :: secGo [c] false cs
    else secGo (c :: cur) (c = '\n') cs

/-- The `sections` array of `splitIntoChunks` (src/ragOptimizer.js:163):
substrings from each marker match to the next (text before the first
marker is not part of any section). -/
def splitIntoSections (content : List Char) : List (List Char) :=
  match firstMarkerSplit true content with
  | none => []
  | some (_, r) =>
    match r with
    | [] => []
    | c :: cs => secGo [c] false cs

/-- The greedy combination loop of `splitIntoChunks`: flush the current
chunk when adding the next section would exceed the budget and the current
chunk is nonempty. -/
def combineGo (maxChunkSize : Nat) (currentChunk : List Char) : List (List Char) → List (List Char)
  | [] => if currentChunk.length = 0 then [] else [currentChunk]
  | sec :: rest =>
    if maxChunkSize < currentChunk.length + sec.length ∧ currentChunk.length ≠ 0 then
      currentChunk :: combineGo maxChunkSize sec rest
    else combineGo maxChunkSize (currentChunk ++ sec) rest

/-- `splitIntoChunks(content, maxChunkSize)` (src/ragOptimizer.js:163). -/
def splitIntoChunks (content : List Char) (maxChunkSize : Nat) : List (List Char) :=
  let sections := splitIntoSections content
  let chunks := combineGo maxChunkSize [] sections
  if chunks.length = 0 then [content] else chunks

/-- JavaScript `content.split('\x7bnewline\x7d')`: every line, empty
pieces preserved. -/
def splitOnNl : List Char → List (List Char)
  | [] => [[]]
  | c :: rest =>
    let r := splitOnNl rest
    if c = '\n' then [] :: r
    else
      match r with
      | x :: xs => (c :: x) :: xs
      | [] => [[c]]

/-- JavaScript `String.prototype.trim`. -/
def trimWs (cs : List Char) : List Char :=
  ((cs.dropWhile isWsC).reverse.dropWhile isWsC).reverse

/-- `line.match` for a `lit \s+(.+)` field pattern: the captured group of
the first match in the line, if any. -/
def lineCapture (lit : List Char) (line : List Char) : Option (List Char) :=
  (scanFind (fun cs => (tryCapAt lit cs).map (fun t => (t, 0))) line).map (fun x => x.2.1)

/-- `line.match` for the Total Messages pattern: the parsed count. -/
def lineTotal (line : List Char) : Option Nat :=
  (findTotal line).map (fun x => x.2.1)

/-- The metadata object `parseExistingExport` builds. -/
structure ExportMeta where
  lastRunISO : Option (List Char)
  lastRun : Option JSDate
  source : Option (List Char)
  totalMessages : Nat
deriving DecidableEq

def initMeta : ExportMeta := ⟨none, none, none, 0⟩

/-- Model of the host `Date` constructor on strings, restricted to the
ISO 8601 profile `toISOString` emits (which is what the exporter writes):
a well-formed `YYYY-MM-DDTHH:MM:SS.mmmZ` string yields a valid instant
(encoded by its digit string), anything else yields the Invalid Date. -/
def jsNewDate (s : List Char) : JSDate :=
  match s with
  | [y1, y2, y3, y4, '-', m1, m2, '-', d1, d2, 'T', h1, h2, ':', n1, n2, ':', s1, s2, '.', f1, f2, f3, 'Z'] =>
    if ([y1, y2, y3, y4, m1, m2, d1, d2, h1, h2, n1, n2, s1, s2, f1, f2, f3].all isDigitC) then
      some (digitsToNat [y1, y2, y3, y4, m1, m2, d1, d2, h1, h2, n1, n2, s1, s2, f1, f2, f3])
    else none
  | _ => none

def litSource : List Char := "**Source:**".data

/-- The header loop of `parseExistingExport` (src teamsClient.js /
ragGenerator part, line 437): each line may set `lastRunISO`/`lastRun`
(via the host Date constructor), `source` and `totalMessages`; the loop
breaks after a line whose trim is the section separator. -/
def parseLines : ExportMeta → List (List Char) → ExportMeta
  | md, [] => md
  | md, line :: rest =>
    let md1 :=
      match lineCapture litLastRun line with
      | some cap => { md with lastRunISO := some (trimWs cap), lastRun := some (jsNewDate (trimWs cap)) }
      | none => md
    let md2 :=
      match lineCapture litSource line with
      | some cap => { md1 with source := some (trimWs cap) }
      | none => md1
    let md3 :=
      match lineTotal line with
      | some k => { md2 with totalMessages := k }
      | none => md2
    if trimWs line = "---".data then md3 else parseLines md3 rest

/-- `parseExistingExport(outputPath)`: `none` when the file is missing,
otherwise the metadata parsed from the header lines. -/
def parseExistingExport (fileExists : Bool) (content : List Char) : Option ExportMeta :=
  if fileExists then some (parseLines initMeta (splitOnNl content)) else none

/-- The incremental-detection step of the generate command
(src index.js, the caller of `parseExistingExport`): incremental mode is
entered whenever the parsed metadata's `lastRun` is non-null — any Date
object, the Invalid Date included, is truthy. -/
structure DetectResult where
  isIncremental : Bool
  sinceDate : Option JSDate
deriving DecidableEq

def incrementalDetect (fileExists : Bool) (content : List Char) : DetectResult :=
  match parseExistingExport fileExists content with
  | some md =>
    match md.lastRun with
    | some d => ⟨true, some d⟩
    | none => ⟨false, none⟩
  | none => ⟨false, none⟩

/-- A decision entry of an extraction result (src/ragOptimizer.js §3). -/
structure Decision where
  summary : List Char
  details : List Char
  participants : List (List Char)
deriving DecidableEq

structure ActionItem where
  task : List Char
  owner : Option (List Char)
  context : List Char
deriving DecidableEq

structure CtxSummary where
  timeframe : List Char
  topic : List Char
  summary : List Char
  keyPoints : List (List Char)
deriving DecidableEq

structure TechDetail where
  kind : List Char
  content : List Char
  context : List Char
deriving DecidableEq

/-- The per-chunk structured extraction result. -/
structure ExtractionResult where
  topics : List (List Char)
  decisions : List Decision
  actionItems : List ActionItem
  contextSummaries : List CtxSummary
  technicalDetails : List TechDetail
  chunkIndex : Nat
deriving DecidableEq

/-- JavaScript `Set.prototype.add`: appends unless already present
(insertion order preserved). -/
def addUnique (s : List (List Char)) (x : List Char) : List (List Char) :=
  if x ∈ s then s else s ++ [x]

/-- The `allTopics` set of `generateStructuredOutput`
(src/ragOptimizer.js:419): every chunk's topics added in chunk order. -/
def allTopicsOf (processedChunks : List ExtractionResult) : List (List Char) :=
  processedChunks.foldl (fun acc c => c.topics.foldl addUnique acc) []

/-- The `allDecisions` array (src/ragOptimizer.js:425). -/
def allDecisionsOf (processedChunks : List ExtractionResult) : List Decision :=
  processedChunks.foldl (fun acc c => acc ++ c.decisions) []

/-- The `allActionItems` array (src/ragOptimizer.js:431). -/
def allActionItemsOf (processedChunks : List ExtractionResult) : List ActionItem :=
  processedChunks.foldl (fun acc c => acc ++ c.actionItems) []

/-- The context-summary flatMap of the main document
(src/ragOptimizer.js:448). -/
def contextSummariesOf (processedChunks : List ExtractionResult) : List CtxSummary :=
  processedChunks.flatMap (fun c => c.contextSummaries)

/-- The technical-detail flatMap of the main document
(src/ragOptimizer.js:461). -/
def technicalDetailsOf (processedChunks : List ExtractionResult) : List TechDetail :=
  processedChunks.flatMap (fun c => c.technicalDetails)

/-- Modelled from the spec's words, for comparison with the code's
aggregation: "set union for topics … preserving first-occurrence order". -/
def keepFirstOcc : List (List Char) → List (List Char)
  | [] => []
  | x :: xs => x :: keepFirstOcc (xs.filter (fun y => y ≠ x))
termination_by l => l.length
decreasing_by exact Nat.lt_succ_of_le (List.length_filter_le _ _)

def litFenceJson : List Char := "```json".data

def backticks3 : List Char := "```".data

/-- Index of the first occurrence of `pat` in `cs`. -/
def firstIdxOf (pat : List Char) : List Char → Option Nat
  | [] => if pat.length = 0 then some 0 else none
  | c :: rest =>
    if (c :: rest).take pat.length = pat then some 0
    else (firstIdxOf pat rest).map (· + 1)

def wsTrailLen (cs : List Char) : Nat := (cs.reverse.takeWhile isWsC).length

def wsLeadLen (cs : List Char) : Nat := (cs.takeWhile isWsC).length

/-- The group captured by `\s*([\s\S]*?)\s*` + three backticks applied to
the text following an opening fence: the engine closes at the first
backtick triple, the lazy group ends before the whitespace run leading
into it, and the leading greedy `\s*` yields to the group when the two
overlap. -/
def fenceExtract (after : List Char) : Option (List Char) :=
  match firstIdxOf backticks3 after with
  | none => none
  | some q =>
    let i := q - wsTrailLen (after.take q)
    let w := min (wsLeadLen after) i
    some ((after.take i).drop w)

/-- The generic-fence fallback regular expression of
`parseClaudeResponse`. -/
def genericFence (response : List Char) : List Char :=
  match firstIdxOf backticks3 response with
  | some p =>
    match fenceExtract (response.drop (p + 3)) with
    | some g => g
    | none => response
  | none => response

/-- The `jsonString` selection of `parseClaudeResponse`
(src/ragOptimizer.js:312): try the ```json fence, then any fence, else the
bare response. -/
def unfence (response : List Char) : List Char :=
  match firstIdxOf litFenceJson response with
  | some p =>
    match fenceExtract (response.drop (p + 7)) with
    | some g => g
    | none => genericFence response
  | none => genericFence response

/-- The body of an export file after a first run and any number of
appends: the first batch's rendering, each later batch's rendering
preceded by the newline `appendMessagesToExport` inserts. -/
def appendedBodies (dateOf : Nat → List Char) (fmt : Msg → List Char) : List (List Msg) → List Char
  | [] => []
  | [b] => generateGroupedByDate dateOf fmt b
  | b :: bs => generateGroupedByDate dateOf fmt b ++ '\n' :: appendedBodies dateOf fmt bs

/-- `parseClaudeResponse(response, context)`: `JSON.parse` is the host
facility `parse`; success pairs the parsed value with the chunk index,
failure throws (the error branch), which the caller does not catch. -/
def parseClaudeResponse {J : Type} (parse : List Char → Option J)
    (response : List Char) (chunkIndex : Nat) : Except (List Char) (J × Nat) :=
  match parse (unfence response) with
  | some j => Except.ok (j, chunkIndex)
  | none => Except.error ("Failed to parse Claude response".data)

/-- The sequential chunk loop of `optimizeForRAG` (src/ragOptimizer.js:51):
chunk i is processed with chunkIndex i, in order, and any parse error
aborts the whole run. -/
def processChunks {J : Type} (parse : List Char → Option J) : Nat → List (List Char) → Except (List Char) (List (J × Nat))
  | _, [] => Except.ok []
  | i, r :: rs =>
    match parseClaudeResponse parse r i with
    | Except.ok x =>
      match processChunks parse (i + 1) rs with
      | Except.ok xs => Except.ok (x :: xs)
      | Except.error e => Except.error e
    | Except.error e => Except.error e

/-! ### Helper lemmas -/

theorem digit_not_ws {c : Char} (h : isDigitC c = true) : isWsC c = false := by
  simp only [isDigitC, Bool.and_eq_true, decide_eq_true_eq] at h
  simp only [isWsC, Bool.or_eq_false_iff, decide_eq_false_iff_not]
  refine ⟨⟨⟨⟨⟨?_, ?_⟩, ?_⟩, ?_⟩, ?_⟩, ?_⟩ <;> rintro rfl <;> revert h <;> decide

theorem takeWhile_len_le (p : Char → Bool) (l : List Char) : (l.takeWhile p).length ≤ l.length := by
  induction l with
  | nil => simp
  | cons c cs ih =>
    by_cases h : p c
    · simp [List.takeWhile, h]; omega
    · simp [List.takeWhile, h]

theorem takeWhile_append_conf {p : Char → Bool} {l : List Char} (x : List Char)
    (h : ∃ c ∈ l, p c = false) : (l ++ x).takeWhile p = l.takeWhile p := by
  induction l with
  | nil => rcases h with ⟨c, hc, _⟩; simp at hc
  | cons a as ih =>
    by_cases ha : p a
    · have h' : ∃ c ∈ as, p c = false := by
        rcases h with ⟨c, hc, hpc⟩
        rcases List.mem_cons.mp hc with rfl | hmem
        · rw [ha] at hpc; cases hpc
        · exact ⟨c, hmem, hpc⟩
      simp [List.takeWhile, ha, ih h']
    · simp [List.takeWhile, Bool.of_not_eq_true ha]

theorem dropWhile_append_conf {p : Char → Bool} {l : List Char} (x : List Char)
    (h : ∃ c ∈ l, p c = false) : (l ++ x).dropWhile p = l.dropWhile p ++ x := by
  induction l with
  | nil => rcases h with ⟨c, hc, _⟩; simp at hc
  | cons a as ih =>
    by_cases ha : p a
    · have h' : ∃ c ∈ as, p c = false := by
        rcases h with ⟨c, hc, hpc⟩
        rcases List.mem_cons.mp hc with rfl | hmem
        · rw [ha] at hpc; cases hpc
        · exact ⟨c, hmem, hpc⟩
      simp [List.dropWhile, ha, ih h']
    · simp [List.dropWhile, Bool.of_not_eq_true ha]

theorem drop_len_takeWhile (p : Char → Bool) (l : List Char) :
    l.drop (l.takeWhile p).length = l.dropWhile p := by
  induction l with
  | nil => simp
  | cons a as ih =>
    by_cases ha : p a
    · simp [List.takeWhile, List.dropWhile, ha, ih]
    · simp [List.takeWhile, List.dropWhile, Bool.of_not_eq_true ha]

theorem takeWhile_all {p : Char → Bool} {l : List Char} (h : ∀ c ∈ l, p c = true) :
    l.takeWhile p = l := by
  induction l with
  | nil => simp
  | cons a as ih =>
    have := h a (List.mem_cons_self a as)
    simp [List.takeWhile, this, ih (fun c hc => h c (List.mem_cons_of_mem a hc))]

theorem takeWhile_nil_head {p : Char → Bool} {c : Char} (l : List Char) (h : p c = false) :
    (c :: l).takeWhile p = [] := by
  simp [List.takeWhile, h]

theorem natDigitsGo_ne_nil : ∀ (fuel n : Nat), n < fuel → natDigitsGo fuel n ≠ [] := by
  intro fuel
  induction fuel with
  | zero => intro n h; omega
  | succ f ih =>
    intro n _
    rw [natDigitsGo]
    split <;> simp

theorem natDigits_ne_nil (n : Nat) : natDigits n ≠ [] :=
  natDigitsGo_ne_nil (n + 1) n (by omega)

theorem natDigitsGo_all_digit : ∀ (fuel n : Nat), n < fuel →
    ∀ c ∈ natDigitsGo fuel n, isDigitC c = true := by
  intro fuel
  induction fuel with
  | zero => intro n h; omega
  | succ f ih =>
    intro n hn c hc
    rw [natDigitsGo] at hc
    split at hc
    · rw [List.mem_singleton] at hc
      subst hc
      rename_i h
      interval_cases n <;> decide
    · rename_i h
      rcases List.mem_append.mp hc with h1 | h2
      · have hdiv : n / 10 < f := by
          have h1' : n / 10 < n := Nat.div_lt_self (by omega) (by omega)
          omega
        exact ih (n / 10) hdiv c h1
      · rw [List.mem_singleton] at h2
        subst h2
        have hmod : n % 10 < 10 := Nat.mod_lt _ (by omega)
        interval_cases hmc : (n % 10) <;> simp_all <;> decide

theorem natDigits_all_digit (n : Nat) : ∀ c ∈ natDigits n, isDigitC c = true :=
  natDigitsGo_all_digit (n + 1) n (by omega)

theorem digitsToNat_append (ds : List Char) (c : Char) :
    digitsToNat (ds ++ [c]) = 10 * digitsToNat ds + (c.toNat - 48) := by
  simp [digitsToNat, List.foldl_append]
  omega

theorem digitsToNat_natDigitsGo : ∀ (fuel n : Nat), n < fuel →
    digitsToNat (natDigitsGo fuel n) = n := by
  intro fuel
  induction fuel with
  | zero => intro n h; omega
  | succ f ih =>
    intro n hn
    rw [natDigitsGo]
    split
    · rename_i h
      simp [digitsToNat]
      interval_cases n <;> decide
    · rename_i h
      have hdiv : n / 10 < f := by
        have h1' : n / 10 < n := Nat.div_lt_self (by omega) (by omega)
        omega
      rw [digitsToNat_append, ih (n / 10) hdiv]
      have h10 : n % 10 < 10 := Nat.mod_lt _ (by omega)
      have hchar : (Char.ofNat (48 + n % 10)).toNat = 48 + n % 10 := by
        interval_cases hmc : (n % 10) <;> decide
      rw [hchar]
      omega

theorem digitsToNat_natDigits (n : Nat) : digitsToNat (natDigits n) = n :=
  digitsToNat_natDigitsGo (n + 1) n (by omega)

theorem scanFind_decomp {A : Type} (tryAt : List Char → Option (A × Nat)) :
    ∀ (cs p : List Char) (a : A) (s : List Char),
    scanFind tryAt cs = some (p, a, s) →
    (∀ i < p.length, tryAt (List.drop i cs) = none) ∧
    (∃ len, tryAt (List.drop p.length cs) = some (a, len) ∧ s = List.drop (p.length + len) cs) ∧
    p ++ List.drop p.length cs = cs := by
  intro cs
  induction cs with
  | nil => intro p a s h; simp [scanFind] at h
  | cons c cs' ih =>
    intro p a s h
    rw [scanFind] at h
    cases htry : tryAt (c :: cs') with
    | some v =>
      obtain ⟨a0, len⟩ := v
      rw [htry] at h
      simp only [Option.some.injEq, Prod.mk.injEq] at h
      obtain ⟨hp, ha, hs⟩ := h
      subst hp
      subst ha
      subst hs
      refine ⟨by intro i hi; simp at hi, ⟨len, ?_, ?_⟩, by simp⟩
      · simpa using htry
      · simp
    | none =>
      rw [htry] at h
      cases hsf : scanFind tryAt cs' with
      | none => rw [hsf] at h; simp at h
      | some t =>
        obtain ⟨p', a', s'⟩ := t
        rw [hsf] at h
        simp only [Option.some.injEq, Prod.mk.injEq] at h
        obtain ⟨hp, ha, hs⟩ := h
        subst hp
        subst ha
        subst hs
        obtain ⟨ih1, ⟨len, ih2, ih3⟩, ih4⟩ := ih p' a' s' hsf
        refine ⟨?_, ⟨len, ?_, ?_⟩, ?_⟩
        · intro i hi
          cases i with
          | zero => simpa using htry
          | succ j =>
            have : j < p'.length := by simpa using hi
            simpa using ih1 j this
        · simpa using ih2
        · rw [show (c :: p').length + len = (p'.length + len) + 1 by simp; omega, List.drop_succ_cons]
          exact ih3
        · simpa using ih4

theorem scanFind_skip {A : Type} (tryAt : List Char → Option (A × Nat)) :
    ∀ (X Y : List Char) (a : A) (len : Nat),
    Y ≠ [] → tryAt Y = some (a, len) →
    (∀ i < X.length, tryAt (List.drop i (X ++ Y)) = none) →
    scanFind tryAt (X ++ Y) = some (X, a, List.drop len Y) := by
  intro X
  induction X with
  | nil =>
    intro Y a len hY htry _
    cases Y with
    | nil => exact absurd rfl hY
    | cons c cs =>
      simp only [List.nil_append]
      rw [scanFind, htry]
  | cons x X' ih =>
    intro Y a len hY htry hpre
    have h0 : tryAt (x :: (X' ++ Y)) = none := by
      have := hpre 0 (by simp)
      simpa using this
    have hrec : scanFind tryAt (X' ++ Y) = some (X', a, List.drop len Y) := by
      refine ih Y a len hY htry ?_
      intro i hi
      have := hpre (i + 1) (by simp; omega)
      simpa using this
    rw [List.cons_append, scanFind, h0, hrec]

/-- C1: at the failing input — a cutoff of 100, the remote delivering a
first page whose only message (created 50) is entirely at or before the
cutoff, and a second page present — the fetch engine still returns the
stale messages from both pages and requests the second page (page counter
2), instead of filtering the page, returning nothing from it, and stopping
after page 1 as the specification requires.  The `sinceDate` argument only
feeds the URL's server-side `$filter`; no client-side per-page filtering
or early termination exists in the code. -/
theorem fetch_cutoff_code_divergence :
    fetchChannelMessages [[⟨1, 50⟩], [⟨2, 40⟩]] none (some (some 100)) =
      Except.ok ([⟨2, 40⟩, ⟨1, 50⟩], 2) ∧
    fetchChatMessages [[⟨1, 50⟩], [⟨2, 40⟩]] none (some (some 100)) =
      Except.ok [⟨2, 40⟩, ⟨1, 50⟩] ∧
    ((50 : Nat) ≤ 100 ∧ (40 : Nat) ≤ 100) := by
  refine ⟨rfl, rfl, by omega⟩

/-- C4: appending an empty batch of new messages performs no write
(`none` in the write slot: the function returns before touching the file,
so its bytes and its timestamps are untouched) and returns 0, for every
file content and every formatting configuration. -/
theorem append_empty_is_noop (oldContent : List Char) (dateOf : Nat → List Char)
    (fmt : Msg → List Char) (nowIso nowLoc : List Char) (groupByDate : Bool) :
    appendMessagesToExport oldContent [] dateOf fmt nowIso nowLoc groupByDate = (none, 0) := rfl

/-- C5: with a positive cap `m`, whenever the loop accumulates more than
`m` messages, the fetch returns exactly `m` messages, namely the suffix of
the chronologically ordered accumulation — the oldest messages are trimmed
from the front, and (under the newest-first delivery invariant, i.e. the
reversed accumulation is sorted by `createdDateTime`) every dropped
message is no newer than every returned one. -/
theorem fetch_cap_keeps_most_recent (pages : List (List Msg)) (m : Nat)
    (acc : List Msg) (pc : Nat)
    (hm : 0 < m)
    (hgo : fetchGo (some m) pages [] 0 0 = (acc, pc))
    (hacc : m < acc.length)
    (hsort : List.Sorted (fun a b : Msg => a.created ≤ b.created) acc.reverse) :
    fetchChannelMessages pages (some m) none = Except.ok (acc.reverse.drop (acc.length - m), pc) ∧
    (acc.reverse.drop (acc.length - m)).length = m ∧
    ∀ x ∈ acc.reverse.take (acc.length - m), ∀ y ∈ acc.reverse.drop (acc.length - m),
      x.created ≤ y.created := by
  have hne : m ≠ 0 := by omega
  refine ⟨?_, ?_, ?_⟩
  · have hlen : m < acc.reverse.length := by rwa [List.length_reverse]
    simp only [fetchChannelMessages, truncateToMax, hgo]
    rw [if_pos ⟨hne, hlen⟩, List.length_reverse]
  · rw [List.length_drop, List.length_reverse]
    omega
  · have hpw : List.Pairwise (fun a b : Msg => a.created ≤ b.created)
        (acc.reverse.take (acc.length - m) ++ acc.reverse.drop (acc.length - m)) := by
      rwa [List.take_append_drop]
    exact (List.pairwise_append.mp hpw).2.2

/-- Witness for C5 at a concrete page list and cap. -/
theorem fetch_cap_keeps_most_recent_witness :
    fetchChannelMessages [[⟨2, 20⟩, ⟨1, 10⟩]] (some 1) none =
      Except.ok ([⟨2, 20⟩], 1) ∧
    ([(⟨2, 20⟩ : Msg)]).length = 1 ∧
    (∀ x ∈ [(⟨1, 10⟩ : Msg)], ∀ y ∈ [(⟨2, 20⟩ : Msg)], x.created ≤ y.created) := by
  have h := fetch_cap_keeps_most_recent [[⟨2, 20⟩, ⟨1, 10⟩]] 1 [⟨2, 20⟩, ⟨1, 10⟩] 1
    (by decide) (by decide) (by decide) (by decide)
  exact h

theorem addToGroups_absent (dateOf : Nat → List Char) (m : Msg) :
    ∀ G : List (List Char × Nat × List Msg),
    dateOf m.created ∉ G.map (fun e => e.1) →
    addToGroups dateOf m G = G ++ [(dateOf m.created, m.created, [m])] := by
  intro G
  induction G with
  | nil => intro _; rfl
  | cons g gs ih =>
    intro h
    have hg : ¬ (g.1 = dateOf m.created) := by
      intro he
      exact h (by simp [he.symm])
    have hgs : dateOf m.created ∉ gs.map (fun e => e.1) := by
      intro hm
      exact h (by simp [hm])
    simp only [addToGroups, if_neg hg, ih hgs, List.cons_append]

theorem addToGroups_present (dateOf : Nat → List Char) (m : Msg) :
    ∀ G : List (List Char × Nat × List Msg),
    dateOf m.created ∈ G.map (fun e => e.1) →
    (G.map (fun e => e.1)).Nodup →
    ∃ l1 e l2, G = l1 ++ e :: l2 ∧ e.1 = dateOf m.created ∧
      (∀ x ∈ l1, x.1 ≠ dateOf m.created) ∧ (∀ x ∈ l2, x.1 ≠ dateOf m.created) ∧
      addToGroups dateOf m G = l1 ++ (e.1, e.2.1, e.2.2 ++ [m]) :: l2 := by
  intro G
  induction G with
  | nil => intro h; simp at h
  | cons g gs ih =>
    intro hmem hnd
    by_cases hg : g.1 = dateOf m.created
    · refine ⟨[], g, gs, by simp, hg, by simp, ?_, ?_⟩
      · intro x hx he
        have hkey : dateOf m.created ∈ gs.map (fun e => e.1) := by
          rw [← he]
          exact List.mem_map_of_mem _ hx
        rw [← hg] at hkey
        exact (List.nodup_cons.mp (by simpa using hnd)).1 hkey
      · simp only [addToGroups, if_pos hg, List.nil_append]
    · have hmem' : dateOf m.created ∈ gs.map (fun e => e.1) := by
        rcases List.mem_map.mp hmem with ⟨x, hx, hex⟩
        rcases List.mem_cons.mp hx with rfl | hxs
        · exact absurd hex hg
        · rw [← hex]
          exact List.mem_map_of_mem _ hxs
      have hnd' : (gs.map (fun e => e.1)).Nodup := (List.nodup_cons.mp (by simpa using hnd)).2
      obtain ⟨l1, e, l2, hG, he, hl1, hl2, hstep⟩ := ih hmem' hnd'
      refine ⟨g :: l1, e, l2, by rw [hG]; rfl, he, ?_, hl2, ?_⟩
      · intro x hx
        rcases List.mem_cons.mp hx with rfl | hxs
        · exact hg
        · exact hl1 x hxs
      · simp only [addToGroups, if_neg hg, hstep, List.cons_append]

theorem buildGroups_spec (dateOf : Nat → List Char) (messages : List Msg) :
    (∀ e ∈ buildGroups dateOf messages,
       e.2.2 = messages.filter (fun x => dateOf x.created = e.1) ∧
       ∃ m0 ms, e.2.2 = m0 :: ms ∧ e.2.1 = m0.created) ∧
    (∀ x ∈ messages, dateOf x.created ∈ (buildGroups dateOf messages).map (fun e => e.1)) ∧
    ((buildGroups dateOf messages).map (fun e => e.1)).Nodup := by
  induction messages using List.reverseRecOn with
  | nil => refine ⟨by intro e he; simp [buildGroups] at he, by simp, by simp [buildGroups]⟩
  | append_singleton msgs m ih =>
    obtain ⟨ihfil, ihcov, ihnd⟩ := ih
    have hstep : buildGroups dateOf (msgs ++ [m]) = addToGroups dateOf m (buildGroups dateOf msgs) := by
      simp [buildGroups, List.foldl_append]
    by_cases hkey : dateOf m.created ∈ (buildGroups dateOf msgs).map (fun e => e.1)
    · obtain ⟨l1, e, l2, hG, he, hl1, hl2, hadd⟩ :=
        addToGroups_present dateOf m (buildGroups dateOf msgs) hkey ihnd
      rw [hstep, hadd]
      have hkeys : (l1 ++ (e.1, e.2.1, e.2.2 ++ [m]) :: l2).map (fun x => x.1)
          = (buildGroups dateOf msgs).map (fun x => x.1) := by
        rw [hG]; simp
      refine ⟨?_, ?_, ?_⟩
      · intro x hx
        rcases List.mem_append.mp hx with hx1 | hx2
        · have hxold : x ∈ buildGroups dateOf msgs := by rw [hG]; exact List.mem_append_left _ hx1
          obtain ⟨hfil, hhead⟩ := ihfil x hxold
          refine ⟨?_, hhead⟩
          rw [List.filter_append, hfil]
          have : List.filter (fun y => decide (dateOf y.created = x.1)) [m] = [] := by
            simp only [List.filter, decide_eq_true_eq]
            have : ¬ (dateOf m.created = x.1) := fun hc => hl1 x hx1 hc.symm
            simp [this]
          rw [this, List.append_nil]
        · rcases List.mem_cons.mp hx2 with rfl | hx3
          · have heold : e ∈ buildGroups dateOf msgs := by rw [hG]; simp
            obtain ⟨hfil, m0, ms, hdec, hest⟩ := ihfil e heold
            refine ⟨?_, m0, ms ++ [m], by simp [hdec], hest⟩
            show e.2.2 ++ [m] = List.filter (fun y => decide (dateOf y.created = e.1)) (msgs ++ [m])
            rw [List.filter_append, ← hfil]
            congr 1
            simp [he]
          · have hxold : x ∈ buildGroups dateOf msgs := by
              rw [hG]; exact List.mem_append_right _ (List.mem_cons_of_mem _ hx3)
            obtain ⟨hfil, hhead⟩ := ihfil x hxold
            refine ⟨?_, hhead⟩
            rw [List.filter_append, hfil]
            have : List.filter (fun y => decide (dateOf y.created = x.1)) [m] = [] := by
              simp only [List.filter, decide_eq_true_eq]
              have : ¬ (dateOf m.created = x.1) := fun hc => hl2 x hx3 hc.symm
              simp [this]
            rw [this, List.append_nil]
      · intro x hx
        rw [hkeys]
        rcases List.mem_append.mp hx with hx1 | hx2
        · exact ihcov x hx1
        · rw [List.mem_singleton.mp hx2]
          exact hkey
      · rw [hkeys]; exact ihnd
    · rw [hstep, addToGroups_absent dateOf m _ hkey]
      refine ⟨?_, ?_, ?_⟩
      · intro x hx
        rcases List.mem_append.mp hx with hx1 | hx2
        · obtain ⟨hfil, hhead⟩ := ihfil x hx1
          refine ⟨?_, hhead⟩
          rw [List.filter_append, hfil]
          have : List.filter (fun y => decide (dateOf y.created = x.1)) [m] = [] := by
            simp only [List.filter, decide_eq_true_eq]
            have : ¬ (dateOf m.created = x.1) := by
              intro hc
              exact hkey (by rw [hc]; exact List.mem_map_of_mem _ hx1)
            simp [this]
          rw [this, List.append_nil]
        · rw [List.mem_singleton.mp hx2]
          refine ⟨?_, m, [], rfl, rfl⟩
          show [m] = _
          rw [List.filter_append]
          have h1 : List.filter (fun y => decide (dateOf y.created = dateOf m.created)) msgs = [] := by
            rw [List.filter_eq_nil_iff]
            intro y hy hc
            rw [decide_eq_true_eq] at hc
            exact hkey (by rw [← hc]; exact ihcov y hy)
          have h2 : List.filter (fun y => decide (dateOf y.created = dateOf m.created)) [m] = [m] := by
            simp
          rw [h1, h2, List.nil_append]
      · intro x hx
        rcases List.mem_append.mp hx with hx1 | hx2
        · have := ihcov x hx1
          simp only [List.map_append, List.mem_append]
          exact Or.inl this
        · rw [List.mem_singleton.mp hx2]
          simp
      · simp only [List.map_append, List.map_cons, List.map_nil]
        rw [List.nodup_append]
        exact ⟨ihnd, List.nodup_singleton _, by simpa using hkey⟩

/-- C7: the date-grouping formatter emits its sections sorted by the full
`createdDateTime` instant of the first message that established each group
(the stored sort key, not a lexical comparison of the locale date
strings), and each section's message list is exactly the input messages of
that date in input order. -/
theorem grouped_sections_ordered (dateOf : Nat → List Char) (messages : List Msg) :
    List.Sorted secLe (sortedSections dateOf messages) ∧
    ∀ e ∈ sortedSections dateOf messages,
      e.2.2 = messages.filter (fun x => dateOf x.created = e.1) ∧
      ∃ m0 ms, e.2.2 = m0 :: ms ∧ e.2.1 = m0.created := by
  constructor
  · exact List.sorted_insertionSort secLe (buildGroups dateOf messages)
  · intro e he
    have hmem : e ∈ buildGroups dateOf messages :=
      (List.perm_insertionSort secLe (buildGroups dateOf messages)).mem_iff.mp he
    exact (buildGroups_spec dateOf messages).1 e hmem

/-- Witness for C7 at a concrete date function and message list. -/
theorem grouped_sections_ordered_witness :
    List.Sorted secLe (sortedSections (fun t => if t < 10 then "1/1/2025".data else "1/2/2025".data)
      [⟨1, 11⟩, ⟨2, 3⟩, ⟨3, 12⟩]) ∧
    ∀ e ∈ sortedSections (fun t => if t < 10 then "1/1/2025".data else "1/2/2025".data)
      [⟨1, 11⟩, ⟨2, 3⟩, ⟨3, 12⟩],
      e.2.2 = [Msg.mk 1 11, Msg.mk 2 3, Msg.mk 3 12].filter
        (fun x => (if x.created < 10 then "1/1/2025".data else "1/2/2025".data) = e.1) ∧
      ∃ m0 ms, e.2.2 = m0 :: ms ∧ e.2.1 = m0.created :=
  grouped_sections_ordered (fun t => if t < 10 then "1/1/2025".data else "1/2/2025".data)
    [⟨1, 11⟩, ⟨2, 3⟩, ⟨3, 12⟩]

theorem addToGroups_sizes (dateOf : Nat → List Char) (m : Msg) :
    ∀ G : List (List Char × Nat × List Msg),
    ((addToGroups dateOf m G).map (fun e => e.2.2.length)).sum
      = (G.map (fun e => e.2.2.length)).sum + 1 := by
  intro G
  induction G with
  | nil => simp [addToGroups]
  | cons g gs ih =>
    by_cases hg : g.1 = dateOf m.created
    · simp only [addToGroups, if_pos hg, List.map_cons, List.sum_cons, List.length_append]
      simp
      omega
    · simp only [addToGroups, if_neg hg, List.map_cons, List.sum_cons, ih]
      omega

theorem buildGroups_sizes (dateOf : Nat → List Char) (messages : List Msg) :
    ((buildGroups dateOf messages).map (fun e => e.2.2.length)).sum = messages.length := by
  induction messages using List.reverseRecOn with
  | nil => simp [buildGroups]
  | append_singleton msgs m ih =>
    have hstep : buildGroups dateOf (msgs ++ [m]) = addToGroups dateOf m (buildGroups dateOf msgs) := by
      simp [buildGroups, List.foldl_append]
    rw [hstep, addToGroups_sizes, ih]
    simp

theorem sectionMsgCounts_eq (dateOf : Nat → List Char) (messages : List Msg) :
    sectionMsgCounts dateOf messages = messages.length := by
  have hperm : ((sortedSections dateOf messages).map (fun e => e.2.2.length)).sum
      = ((buildGroups dateOf messages).map (fun e => e.2.2.length)).sum :=
    ((List.perm_insertionSort secLe (buildGroups dateOf messages)).map _).sum_eq
  rw [sectionMsgCounts, hperm, buildGroups_sizes]

theorem secGo_flatten (cs : List Char) : ∀ (cur : List Char) (atStart : Bool),
    (secGo cur atStart cs).flatten = cur.reverse ++ cs := by
  induction cs with
  | nil => intro cur atStart; simp [secGo]
  | cons c cs' ih =>
    intro cur atStart
    by_cases h : atStart && markerAt (c :: cs')
    · simp only [secGo, if_pos h, List.flatten_cons, ih [c] false]
      simp
    · simp only [secGo, if_neg h, ih (c :: cur) (c = '\n')]
      simp

theorem secGo_mem_ne_nil (cs : List Char) : ∀ (cur : List Char) (atStart : Bool),
    cur ≠ [] → ∀ s ∈ secGo cur atStart cs, s ≠ [] := by
  induction cs with
  | nil =>
    intro cur atStart hcur s hs
    simp only [secGo, List.mem_singleton] at hs
    subst hs
    simpa using hcur
  | cons c cs' ih =>
    intro cur atStart hcur s hs
    by_cases h : atStart && markerAt (c :: cs')
    · simp only [secGo, if_pos h, List.mem_cons] at hs
      rcases hs with rfl | hs2
      · simpa using hcur
      · exact ih [c] false (by simp) s hs2
    · simp only [secGo, if_neg h] at hs
      exact ih (c :: cur) (c = '\n') (by simp) s hs

theorem secGo_ne_nil (cs : List Char) : ∀ (cur : List Char) (atStart : Bool),
    secGo cur atStart cs ≠ [] := by
  induction cs with
  | nil => intro cur atStart; simp [secGo]
  | cons c cs' ih =>
    intro cur atStart
    by_cases h : atStart && markerAt (c :: cs')
    · simp only [secGo, if_pos h]
      simp
    · simp only [secGo, if_neg h]
      exact ih (c :: cur) (c = '\n')

theorem firstMarkerSplit_decomp (cs : List Char) : ∀ (b : Bool) (p r : List Char),
    firstMarkerSplit b cs = some (p, r) → p ++ r = cs ∧ r ≠ [] := by
  induction cs with
  | nil => intro b p r h; simp [firstMarkerSplit] at h
  | cons c cs' ih =>
    intro b p r h
    by_cases hm : b && markerAt (c :: cs')
    · rw [firstMarkerSplit, if_pos hm] at h
      simp only [Option.some.injEq, Prod.mk.injEq] at h
      obtain ⟨hp, hr⟩ := h
      subst hp
      subst hr
      exact ⟨rfl, by simp⟩
    · rw [firstMarkerSplit, if_neg hm] at h
      cases hrec : firstMarkerSplit (c = '\n') cs' with
      | none => rw [hrec] at h; simp at h
      | some t =>
        obtain ⟨p', r'⟩ := t
        rw [hrec] at h
        simp only [Option.some.injEq, Prod.mk.injEq] at h
        obtain ⟨hp, hr⟩ := h
        subst hp
        subst hr
        obtain ⟨ih1, ih2⟩ := ih (c = '\n') p' r' hrec
        exact ⟨by rw [List.cons_append, ih1], ih2⟩

theorem combineGo_flatten (secs : List (List Char)) : ∀ (maxChunkSize : Nat) (cur : List Char),
    (combineGo maxChunkSize cur secs).flatten = cur ++ secs.flatten := by
  induction secs with
  | nil =>
    intro maxC cur
    simp only [combineGo]
    by_cases h : cur.length = 0
    · rw [if_pos h]
      simp [List.length_eq_zero.mp h]
    · rw [if_neg h]
      simp
  | cons sec rest ih =>
    intro maxC cur
    simp only [combineGo]
    by_cases h : maxC < cur.length + sec.length ∧ cur.length ≠ 0
    · rw [if_pos h]
      simp [ih, List.append_assoc]
    · rw [if_neg h]
      simp [ih, List.append_assoc]

theorem combineGo_eq_nil (secs : List (List Char)) : ∀ (maxChunkSize : Nat) (cur : List Char),
    combineGo maxChunkSize cur secs = [] → cur = [] := by
  induction secs with
  | nil =>
    intro maxC cur h
    simp only [combineGo] at h
    by_cases hc : cur.length = 0
    · exact List.length_eq_zero.mp hc
    · rw [if_neg hc] at h; simp at h
  | cons sec rest ih =>
    intro maxC cur h
    simp only [combineGo] at h
    by_cases hc : maxC < cur.length + sec.length ∧ cur.length ≠ 0
    · rw [if_pos hc] at h; simp at h
    · rw [if_neg hc] at h
      have := ih maxC (cur ++ sec) h
      exact (List.append_eq_nil.mp this).1

theorem combineGo_sizes (secsAll : List (List Char)) (maxChunkSize : Nat)
    (secs : List (List Char)) : ∀ (cur : List Char),
    (cur = [] ∨ cur.length ≤ maxChunkSize ∨ cur ∈ secsAll) →
    (∀ s ∈ secs, s ∈ secsAll) →
    ∀ ch ∈ combineGo maxChunkSize cur secs,
      ch.length ≤ maxChunkSize ∨ (ch ∈ secsAll ∧ maxChunkSize < ch.length) := by
  induction secs with
  | nil =>
    intro cur hcur _ ch hch
    simp only [combineGo] at hch
    by_cases hc : cur.length = 0
    · rw [if_pos hc] at hch; simp at hch
    · rw [if_neg hc] at hch
      rw [List.mem_singleton] at hch
      subst hch
      rcases hcur with rfl | hle | hmem
      · simp at hc
      · exact Or.inl hle
      · rcases le_or_lt ch.length maxChunkSize with h | h
        · exact Or.inl h
        · exact Or.inr ⟨hmem, h⟩
  | cons sec rest ih =>
    intro cur hcur hsub ch hch
    simp only [combineGo] at hch
    by_cases hc : maxChunkSize < cur.length + sec.length ∧ cur.length ≠ 0
    · rw [if_pos hc] at hch
      rcases List.mem_cons.mp hch with rfl | hch2
      · rcases hcur with rfl | hle | hmem
        · simp at hc
        · exact Or.inl hle
        · rcases le_or_lt ch.length maxChunkSize with h | h
          · exact Or.inl h
          · exact Or.inr ⟨hmem, h⟩
      · exact ih sec (Or.inr (Or.inr (hsub sec (List.mem_cons_self _ _))))
          (fun s hs => hsub s (List.mem_cons_of_mem _ hs)) ch hch2
    · rw [if_neg hc] at hch
      have hcur' : cur ++ sec = [] ∨ (cur ++ sec).length ≤ maxChunkSize ∨ cur ++ sec ∈ secsAll := by
        rcases Decidable.not_and_iff_or_not.mp hc with h1 | h2
        · exact Or.inr (Or.inl (by rw [List.length_append]; omega))
        · have : cur = [] := List.length_eq_zero.mp (by simpa using h2)
          subst this
          exact Or.inr (Or.inr (by simpa using hsub sec (List.mem_cons_self _ _)))
      exact ih (cur ++ sec) hcur' (fun s hs => hsub s (List.mem_cons_of_mem _ hs)) ch hch

theorem combineGo_partition (maxChunkSize : Nat) :
    ∀ (secs : List (List Char)) (g : List (List Char)) (cur : List Char),
    cur = g.flatten → g ≠ [] → (∀ s ∈ g, s ≠ []) → (∀ s ∈ secs, s ≠ []) →
    ∃ gss : List (List (List Char)), gss.flatten = g ++ secs ∧ (∀ x ∈ gss, x ≠ []) ∧
      combineGo maxChunkSize cur secs = gss.map List.flatten := by
  intro secs
  induction secs with
  | nil =>
    intro g cur hcur hg hge _
    subst hcur
    have hcne : g.flatten ≠ [] := by
      cases g with
      | nil => exact absurd rfl hg
      | cons s ss =>
        have hs : s ≠ [] := hge s (List.mem_cons_self _ _)
        simp only [List.flatten_cons]
        intro hnil
        exact hs (List.append_eq_nil.mp hnil).1
    have hlen : ¬ (g.flatten.length = 0) := by
      intro h0
      exact hcne (List.length_eq_zero.mp h0)
    refine ⟨[g], by simp, ?_, ?_⟩
    · intro x hx
      rw [List.mem_singleton] at hx
      subst hx
      exact hg
    · simp only [combineGo, if_neg hlen, List.map_cons, List.map_nil]
  | cons sec rest ih =>
    intro g cur hcur hg hge hsecs
    subst hcur
    have hsec : sec ≠ [] := hsecs sec (List.mem_cons_self _ _)
    have hrest : ∀ s ∈ rest, s ≠ [] := fun s hs => hsecs s (List.mem_cons_of_mem _ hs)
    by_cases hc : maxChunkSize < g.flatten.length + sec.length ∧ g.flatten.length ≠ 0
    · obtain ⟨gss', hflat, hne, heq⟩ := ih [sec] sec (by simp) (by simp)
        (by intro s hs; rw [List.mem_singleton] at hs; subst hs; exact hsec) hrest
      refine ⟨g :: gss', ?_, ?_, ?_⟩
      · rw [List.flatten_cons, hflat]
        simp
      · intro x hx
        rcases List.mem_cons.mp hx with rfl | hx2
        · exact hg
        · exact hne x hx2
      · simp only [combineGo, if_pos hc, heq, List.map_cons]
    · obtain ⟨gss', hflat, hne, heq⟩ := ih (g ++ [sec]) (g.flatten ++ sec)
        (by simp) (by simp)
        (by
          intro s hs
          rcases List.mem_append.mp hs with h1 | h2
          · exact hge s h1
          · rw [List.mem_singleton] at h2; subst h2; exact hsec)
        hrest
      refine ⟨gss', ?_, hne, ?_⟩
      · rw [hflat]
        simp
      · simp only [combineGo, if_neg hc, heq]

/-- C6: the chunk splitter's contract.  When the document has no
recognizable date-section marker, the whole document is returned as one
chunk.  When it has markers, every returned chunk either fits the
character budget or is a single date section (whose text alone exceeds the
budget, returned whole rather than truncated), and the chunk list is a
partition of the section list into consecutive whole sections — no date
section's text is divided across two chunks. -/
theorem chunk_splitter_contract (content : List Char) (maxChunkSize : Nat) :
    (firstMarkerSplit true content = none → splitIntoChunks content maxChunkSize = [content]) ∧
    (∀ p r, firstMarkerSplit true content = some (p, r) →
      (∀ ch ∈ splitIntoChunks content maxChunkSize,
        ch.length ≤ maxChunkSize ∨ (ch ∈ splitIntoSections content ∧ maxChunkSize < ch.length)) ∧
      ∃ gss : List (List (List Char)), gss.flatten = splitIntoSections content ∧
        (∀ x ∈ gss, x ≠ []) ∧ splitIntoChunks content maxChunkSize = gss.map List.flatten) := by
  constructor
  · intro hnone
    simp [splitIntoChunks, splitIntoSections, hnone, combineGo]
  · intro p r hsome
    obtain ⟨hpr, hrne⟩ := firstMarkerSplit_decomp content true p r hsome
    cases hr : r with
    | nil => exact absurd hr hrne
    | cons c cs =>
      have hsections : splitIntoSections content = secGo [c] false cs := by
        simp [splitIntoSections, hsome, hr]
      have hsecne : ∀ s ∈ splitIntoSections content, s ≠ [] := by
        rw [hsections]
        exact secGo_mem_ne_nil cs [c] false (by simp)
      have hsecnil : splitIntoSections content ≠ [] := by
        rw [hsections]
        exact secGo_ne_nil cs [c] false
      cases hsecs : splitIntoSections content with
      | nil => exact absurd hsecs hsecnil
      | cons s ss =>
        have hs : s ≠ [] := hsecne s (by rw [hsecs]; exact List.mem_cons_self _ _)
        have hstep : combineGo maxChunkSize [] (s :: ss) = combineGo maxChunkSize s ss := by
          have : ¬ (maxChunkSize < ([] : List Char).length + s.length ∧ ([] : List Char).length ≠ 0) := by
            simp
          simp only [combineGo, if_neg this, List.nil_append]
        have hne : combineGo maxChunkSize s ss ≠ [] := by
          intro h0
          exact hs (combineGo_eq_nil ss maxChunkSize s h0)
        have hchunks : splitIntoChunks content maxChunkSize = combineGo maxChunkSize s ss := by
          simp only [splitIntoChunks, hsecs, hstep]
          rw [if_neg (by simpa using hne)]
        constructor
        · intro ch hch
          rw [hchunks] at hch
          have := combineGo_sizes (s :: ss) maxChunkSize ss s
            (Or.inr (Or.inr (List.mem_cons_self _ _)))
            (fun x hx => List.mem_cons_of_mem _ hx) ch hch
          exact this
        · obtain ⟨gss, hflat, hgne, heq⟩ := combineGo_partition maxChunkSize ss [s] s
            (by simp) (by simp) (by intro x hx; rw [List.mem_singleton] at hx; subst hx; exact hs)
            (fun x hx => hsecne x (by rw [hsecs]; exact List.mem_cons_of_mem _ hx))
          refine ⟨gss, ?_, hgne, by rw [hchunks, heq]⟩
          rw [hflat]
          rfl

/-- Witness for C6 at a concrete two-section document and a budget of 5
characters (both sections oversized, hence each becomes its own chunk). -/
theorem chunk_splitter_contract_witness :
    (∀ ch ∈ splitIntoChunks ("## 1/1/2025\nab\n\n## 1/22/2025\ncd".data) 5,
      ch.length ≤ 5 ∨ (ch ∈ splitIntoSections ("## 1/1/2025\nab\n\n## 1/22/2025\ncd".data) ∧ 5 < ch.length)) ∧
    ∃ gss : List (List (List Char)),
      gss.flatten = splitIntoSections ("## 1/1/2025\nab\n\n## 1/22/2025\ncd".data) ∧
      (∀ x ∈ gss, x ≠ []) ∧
      splitIntoChunks ("## 1/1/2025\nab\n\n## 1/22/2025\ncd".data) 5 = gss.map List.flatten :=
  (chunk_splitter_contract ("## 1/1/2025\nab\n\n## 1/22/2025\ncd".data) 5).2
    [] ("## 1/1/2025\nab\n\n## 1/22/2025\ncd".data) (by decide)

/-- C10: when the document contains a date-section marker, the
concatenation of the returned chunks is exactly the document text from the
first marker to the end — the preamble before the first marker (the header
block) is not part of any chunk; when there is no marker, the single
returned chunk is the whole document, header included. -/
theorem chunks_cover_from_first_marker (content : List Char) (maxChunkSize : Nat) :
    (∀ p r, firstMarkerSplit true content = some (p, r) →
      p ++ r = content ∧ (splitIntoChunks content maxChunkSize).flatten = r) ∧
    (firstMarkerSplit true content = none →
      splitIntoChunks content maxChunkSize = [content]) := by
  constructor
  · intro p r hsome
    obtain ⟨hpr, hrne⟩ := firstMarkerSplit_decomp content true p r hsome
    refine ⟨hpr, ?_⟩
    cases hr : r with
    | nil => exact absurd hr hrne
    | cons c cs =>
      have hsections : splitIntoSections content = secGo [c] false cs := by
        simp [splitIntoSections, hsome, hr]
      have hsecne : ∀ s ∈ splitIntoSections content, s ≠ [] := by
        rw [hsections]
        exact secGo_mem_ne_nil cs [c] false (by simp)
      have hflatsec : (splitIntoSections content).flatten = c :: cs := by
        rw [hsections, secGo_flatten]
        simp
      cases hsecs : splitIntoSections content with
      | nil => rw [hsecs] at hflatsec; simp at hflatsec
      | cons s ss =>
        have hs : s ≠ [] := hsecne s (by rw [hsecs]; exact List.mem_cons_self _ _)
        have hstep : combineGo maxChunkSize [] (s :: ss) = combineGo maxChunkSize s ss := by
          have hcond : ¬ (maxChunkSize < ([] : List Char).length + s.length ∧ ([] : List Char).length ≠ 0) := by
            simp
          simp only [combineGo, if_neg hcond, List.nil_append]
        have hne : combineGo maxChunkSize s ss ≠ [] := by
          intro h0
          exact hs (combineGo_eq_nil ss maxChunkSize s h0)
        have hchunks : splitIntoChunks content maxChunkSize = combineGo maxChunkSize s ss := by
          simp only [splitIntoChunks, hsecs, hstep]
          rw [if_neg (by simpa using hne)]
        rw [hchunks, combineGo_flatten]
        rw [hsecs] at hflatsec
        simpa using hflatsec
  · intro hnone
    simp [splitIntoChunks, splitIntoSections, hnone, combineGo]

/-- Witness for C10: a document with a header block before its two date
sections; the chunks' concatenation is the text from the first marker on. -/
theorem chunks_cover_from_first_marker_witness :
    "header text\n".data ++ "## 1/1/2025\nab\n\n## 1/22/2025\ncd".data
        = "header text\n## 1/1/2025\nab\n\n## 1/22/2025\ncd".data ∧
    (splitIntoChunks ("header text\n## 1/1/2025\nab\n\n## 1/22/2025\ncd".data) 1000).flatten
        = "## 1/1/2025\nab\n\n## 1/22/2025\ncd".data :=
  (chunks_cover_from_first_marker ("header text\n## 1/1/2025\nab\n\n## 1/22/2025\ncd".data) 1000).1
    ("header text\n".data) ("## 1/1/2025\nab\n\n## 1/22/2025\ncd".data) (by decide)

theorem foldl_concat_eq {α β : Type} (f : α → List β) (l : List α) :
    ∀ init : List β, l.foldl (fun acc c => acc ++ f c) init = init ++ (l.map f).flatten := by
  induction l with
  | nil => intro init; simp
  | cons c cs ih =>
    intro init
    simp only [List.foldl_cons, ih, List.map_cons, List.flatten_cons, List.append_assoc]

theorem foldl_addUnique_chunks (chunks : List ExtractionResult) :
    ∀ init : List (List Char),
    chunks.foldl (fun acc c => c.topics.foldl addUnique acc) init
      = ((chunks.map (fun c => c.topics)).flatten).foldl addUnique init := by
  induction chunks with
  | nil => intro init; simp
  | cons c cs ih =>
    intro init
    simp only [List.foldl_cons, List.map_cons, List.flatten_cons, List.foldl_append, ih]

theorem foldl_addUnique_keepFirst :
    ∀ (l : List (List Char)) (s : List (List Char)),
    l.foldl addUnique s = s ++ keepFirstOcc (l.filter (fun x => decide (x ∉ s))) := by
  intro l
  induction l with
  | nil => intro s; simp [keepFirstOcc]
  | cons x xs ih =>
    intro s
    by_cases hx : x ∈ s
    · have hstep : addUnique s x = s := by simp [addUnique, hx]
      have hfil : (x :: xs).filter (fun y => decide (y ∉ s)) = xs.filter (fun y => decide (y ∉ s)) := by
        simp [List.filter, hx]
      rw [List.foldl_cons, hstep, ih s, hfil]
    · have hstep : addUnique s x = s ++ [x] := by simp [addUnique, hx]
      have hfil : (x :: xs).filter (fun y => decide (y ∉ s)) = x :: xs.filter (fun y => decide (y ∉ s)) := by
        simp [List.filter, hx]
      rw [List.foldl_cons, hstep, ih (s ++ [x]), hfil, keepFirstOcc]
      have hinner : xs.filter (fun y => decide (y ∉ s ++ [x]))
          = (xs.filter (fun y => decide (y ∉ s))).filter (fun y => decide (y ≠ x)) := by
        rw [List.filter_filter]
        apply List.filter_congr
        intro y _
        simp [List.mem_append, not_or, and_comm]
      rw [hinner]
      simp

/-- C9: the aggregate merges per-chunk extraction results strictly in
chunk-index order: decisions, action items, context summaries and
technical details are the concatenation, in chunk order, of the per-chunk
lists (so entries from different chunks keep their chunks' relative
order), and the topic set is the union in chunk order keeping each topic's
first occurrence (`keepFirstOcc` states the spec's wording; the code's
insertion-ordered Set produces exactly it). -/
theorem aggregation_order (processedChunks : List ExtractionResult) :
    allTopicsOf processedChunks = keepFirstOcc ((processedChunks.map (fun c => c.topics)).flatten) ∧
    allDecisionsOf processedChunks = (processedChunks.map (fun c => c.decisions)).flatten ∧
    allActionItemsOf processedChunks = (processedChunks.map (fun c => c.actionItems)).flatten ∧
    contextSummariesOf processedChunks = (processedChunks.map (fun c => c.contextSummaries)).flatten ∧
    technicalDetailsOf processedChunks = (processedChunks.map (fun c => c.technicalDetails)).flatten := by
  refine ⟨?_, ?_, ?_, ?_, ?_⟩
  · rw [allTopicsOf, foldl_addUnique_chunks, foldl_addUnique_keepFirst]
    simp only [List.nil_append]
    congr 1
    apply (List.filter_eq_self).mpr
    intro y _
    simp
  · rw [allDecisionsOf, foldl_concat_eq]
    simp
  · rw [allActionItemsOf, foldl_concat_eq]
    simp
  · simp [contextSummariesOf, List.flatMap_def]
  · simp [technicalDetailsOf, List.flatMap_def]

set_option maxRecDepth 4000

/-- C3 counterexample: an existing export whose `Last Run:` value is not a
parseable instant is NOT treated as absent.  The header reader stores the
Invalid Date (a truthy object), the run therefore enters incremental mode
instead of a full no-cutoff fetch, and the fetch then aborts when
serializing the invalid cutoff (`toISOString` throws) — the run crashes. -/
theorem invalid_lastRun_counterexample :
    incrementalDetect true ("# Teams Chat Export for RAG\n\n**Total Messages:** 5\n**Last Run:** not-a-real-timestamp\n\n---\n".data)
      = ⟨true, some none⟩ ∧
    fetchChatMessages [[⟨1, 5⟩]] none
        (incrementalDetect true ("# Teams Chat Export for RAG\n\n**Total Messages:** 5\n**Last Run:** not-a-real-timestamp\n\n---\n".data)).sinceDate
      = Except.error "Invalid time value" := by
  constructor
  · decide
  · have h : (incrementalDetect true ("# Teams Chat Export for RAG\n\n**Total Messages:** 5\n**Last Run:** not-a-real-timestamp\n\n---\n".data)).sinceDate = some none := by
      decide
    rw [h]
    rfl

/-- C3 (amended): a present-but-unparseable `lastSyncAt` field is not
treated as absent; the header reader records the host's Invalid Date,
which is truthy, so the caller enters incremental mode with the invalid
cutoff, and the subsequent fetch fails when serializing it, instead of
performing a full fetch. -/
theorem invalid_lastRun_triggers_incremental_crash (content : List Char)
    (pages : List (List Msg)) (maxMessages : Option Nat)
    (h : (parseLines initMeta (splitOnNl content)).lastRun = some none) :
    incrementalDetect true content = ⟨true, some none⟩ ∧
    fetchChatMessages pages maxMessages (some none) = Except.error "Invalid time value" := by
  constructor
  · simp [incrementalDetect, parseExistingExport, h]
  · rfl

/-- Witness for the amended C3 statement at a concrete export header. -/
theorem invalid_lastRun_triggers_incremental_crash_witness :
    incrementalDetect true ("# T\n\n**Last Run:** corrupted-value\n\n---\n".data) = ⟨true, some none⟩ ∧
    fetchChatMessages [[⟨2, 7⟩]] none (some none) = Except.error "Invalid time value" :=
  invalid_lastRun_triggers_incremental_crash ("# T\n\n**Last Run:** corrupted-value\n\n---\n".data)
    [[⟨2, 7⟩]] none (by decide)

theorem mem_takeWhile_pred {p : Char → Bool} : ∀ {l : List Char} {c : Char},
    c ∈ l.takeWhile p → p c = true := by
  intro l
  induction l with
  | nil => intro c hc; simp at hc
  | cons a as ih =>
    intro c hc
    by_cases ha : p a
    · rw [List.takeWhile_cons_of_pos ha] at hc
      rcases List.mem_cons.mp hc with rfl | hc2
      · exact ha
      · exact ih hc2
    · rw [List.takeWhile_cons_of_neg ha] at hc
      simp at hc

theorem dropWhile_append_of_pos {p : Char → Bool} {L : List Char} (X : List Char)
    (h : ∀ c ∈ L, p c = true) : (L ++ X).dropWhile p = X.dropWhile p := by
  induction L with
  | nil => simp
  | cons a as ih =>
    have ha : p a = true := h a (List.mem_cons_self _ _)
    rw [List.cons_append, List.dropWhile_cons_of_pos ha]
    exact ih (fun c hc => h c (List.mem_cons_of_mem _ hc))

theorem dropWhile_eq_nil_of_all {p : Char → Bool} {l : List Char}
    (h : ∀ c ∈ l, p c = true) : l.dropWhile p = [] := by
  induction l with
  | nil => simp
  | cons a as ih =>
    rw [List.dropWhile_cons_of_pos (h a (List.mem_cons_self _ _))]
    exact ih (fun c hc => h c (List.mem_cons_of_mem _ hc))

theorem dropWhile_head_neg {p : Char → Bool} : ∀ {l : List Char} {c : Char} {t : List Char},
    l.dropWhile p = c :: t → p c = false := by
  intro l
  induction l with
  | nil => intro c t h; simp at h
  | cons a as ih =>
    intro c t h
    by_cases ha : p a
    · rw [List.dropWhile_cons_of_pos ha] at h
      exact ih h
    · rw [List.dropWhile_cons_of_neg ha] at h
      injection h with h1 h2
      rw [← h1]
      exact Bool.of_not_eq_true ha

theorem firstIdxOf_zero {pat cs : List Char} (hne : cs ≠ []) (h : cs.take pat.length = pat) :
    firstIdxOf pat cs = some 0 := by
  cases cs with
  | nil => exact absurd rfl hne
  | cons c rest => simp [firstIdxOf, h]

theorem firstIdxOf_at (pat : List Char) : ∀ (X Y : List Char),
    Y ≠ [] → Y.take pat.length = pat →
    (∀ i < X.length, ((X ++ Y).drop i).take pat.length ≠ pat) →
    firstIdxOf pat (X ++ Y) = some X.length := by
  intro X
  induction X with
  | nil =>
    intro Y hY hYt _
    simpa using firstIdxOf_zero hY hYt
  | cons x X' ih =>
    intro Y hY hYt hpre
    have h0 : ¬ ((x :: (X' ++ Y)).take pat.length = pat) := by
      have := hpre 0 (by simp)
      simpa using this
    have hrec : firstIdxOf pat (X' ++ Y) = some X'.length := by
      refine ih Y hY hYt ?_
      intro i hi
      have := hpre (i + 1) (by simp; omega)
      simpa using this
    rw [List.cons_append, firstIdxOf]
    rw [if_neg (by simpa using h0)]
    rw [hrec]
    simp

theorem firstIdxOf_none {pat' cs : List Char} (h : ∀ c ∈ cs, c ≠ '`') :
    firstIdxOf ('`' :: pat') cs = none := by
  induction cs with
  | nil => simp [firstIdxOf]
  | cons c rest ih =>
    have hc : c ≠ '`' := h c (List.mem_cons_self _ _)
    rw [firstIdxOf]
    have hne : ¬ ((c :: rest).take ('`' :: pat').length = '`' :: pat') := by
      intro hcontra
      rw [List.length_cons, List.take_succ_cons] at hcontra
      injection hcontra with h1 _
      exact hc h1
    rw [if_neg hne, ih (fun d hd => h d (List.mem_cons_of_mem _ hd))]
    rfl

theorem take_ne_pat_at (X Y : List Char) (pat' : List Char) (hX : ∀ c ∈ X, c ≠ '`') :
    ∀ i < X.length, ((X ++ Y).drop i).take ('`' :: pat').length ≠ '`' :: pat' := by
  intro i hi hcontra
  have hlt : i < (X ++ Y).length := by rw [List.length_append]; omega
  rw [List.drop_eq_getElem_cons hlt, List.length_cons, List.take_succ_cons] at hcontra
  injection hcontra with h1 _
  have hXi : (X ++ Y)[i] = X[i] := List.getElem_append_left hi
  rw [hXi] at h1
  exact hX X[i] (List.getElem_mem hi) h1

theorem trim_decomp (l : List Char) :
    (∀ c ∈ l, isWsC c = true) ∨
    ∃ L M R, l = L ++ M ++ R ∧ (∀ c ∈ L, isWsC c = true) ∧ (∀ c ∈ R, isWsC c = true) ∧
      (∃ c0 M', M = c0 :: M' ∧ isWsC c0 = false) ∧
      (∃ c1 M'', M = M'' ++ [c1] ∧ isWsC c1 = false) := by
  by_cases hall : ∀ c ∈ l, isWsC c = true
  · exact Or.inl hall
  · right
    have hsplit := List.takeWhile_append_dropWhile isWsC l
    have hrestne : l.dropWhile isWsC ≠ [] := by
      intro h0
      apply hall
      intro c hc
      apply mem_takeWhile_pred (p := isWsC)
      have h2 := hsplit
      rw [h0, List.append_nil] at h2
      rwa [h2]
    obtain ⟨r0, rt, hr0⟩ := List.exists_cons_of_ne_nil hrestne
    have hr0ws : isWsC r0 = false := dropWhile_head_neg hr0
    have hrevsplit := List.takeWhile_append_dropWhile isWsC (l.dropWhile isWsC).reverse
    have hMrevne : (l.dropWhile isWsC).reverse.dropWhile isWsC ≠ [] := by
      intro h0
      have hallrev : ∀ c ∈ (l.dropWhile isWsC).reverse, isWsC c = true := by
        intro c hc
        apply mem_takeWhile_pred (p := isWsC)
        have h2 := hrevsplit
        rw [h0, List.append_nil] at h2
        rwa [h2]
      have hr0m : r0 ∈ (l.dropWhile isWsC).reverse := by
        rw [List.mem_reverse, hr0]
        exact List.mem_cons_self _ _
      have hcontra := hallrev r0 hr0m
      rw [hr0ws] at hcontra
      cases hcontra
    obtain ⟨d, dt, hd⟩ := List.exists_cons_of_ne_nil hMrevne
    have hdws : isWsC d = false := dropWhile_head_neg hd
    have hMrest : ((l.dropWhile isWsC).reverse.dropWhile isWsC).reverse
        ++ ((l.dropWhile isWsC).reverse.takeWhile isWsC).reverse = l.dropWhile isWsC := by
      rw [← List.reverse_append, hrevsplit, List.reverse_reverse]
    have hMne : ((l.dropWhile isWsC).reverse.dropWhile isWsC).reverse ≠ [] := by
      simpa using hMrevne
    obtain ⟨m0, mt, hm⟩ := List.exists_cons_of_ne_nil hMne
    have hm0 : m0 = r0 := by
      have h2 : l.dropWhile isWsC
          = (m0 :: mt) ++ ((l.dropWhile isWsC).reverse.takeWhile isWsC).reverse := by
        rw [← hm, hMrest]
      rw [hr0] at h2
      injection h2 with h3 _
      exact h3.symm
    refine ⟨l.takeWhile isWsC,
      ((l.dropWhile isWsC).reverse.dropWhile isWsC).reverse,
      ((l.dropWhile isWsC).reverse.takeWhile isWsC).reverse, ?_, ?_, ?_, ?_, ?_⟩
    · rw [List.append_assoc, hMrest, hsplit]
    · intro c hc
      exact mem_takeWhile_pred hc
    · intro c hc
      rw [List.mem_reverse] at hc
      exact mem_takeWhile_pred hc
    · exact ⟨m0, mt, hm, by rw [hm0]; exact hr0ws⟩
    · refine ⟨d, dt.reverse, ?_, hdws⟩
      rw [hd]
      exact List.reverse_cons d dt

theorem fenceExtract_eq (after : List Char) (q : Nat)
    (h : firstIdxOf backticks3 after = some q) :
    fenceExtract after = some ((after.take (q - wsTrailLen (after.take q))).drop
      (min (wsLeadLen after) (q - wsTrailLen (after.take q)))) := by
  unfold fenceExtract
  rw [h]

theorem trimWs_of_decomp (L M R : List Char) (c0 c1 : Char) (M' M'' : List Char)
    (hLws : ∀ c ∈ L, isWsC c = true) (hRws : ∀ c ∈ R, isWsC c = true)
    (hM0 : M = c0 :: M') (hc0 : isWsC c0 = false)
    (hM1 : M = M'' ++ [c1]) (hc1 : isWsC c1 = false) :
    trimWs (L ++ M ++ R) = M := by
  rw [trimWs, List.append_assoc, dropWhile_append_of_pos _ hLws]
  have hMR : M ++ R = c0 :: (M' ++ R) := by rw [hM0]; rfl
  rw [hMR, List.dropWhile_cons_of_neg (by rw [hc0]; simp)]
  rw [← hMR]
  have hrev : (M ++ R).reverse = R.reverse ++ (c1 :: M''.reverse) := by
    rw [hM1]
    simp [List.reverse_append]
  rw [hrev, dropWhile_append_of_pos _ (by intro c hc; exact hRws c (List.mem_reverse.mp hc))]
  rw [List.dropWhile_cons_of_neg (by rw [hc1]; simp)]
  rw [show (c1 :: M''.reverse) = M.reverse by rw [hM1]; simp]
  exact List.reverse_reverse M

theorem fenceExtract_eq_trim (inner post : List Char) (hb : ∀ c ∈ inner, c ≠ '`') :
    fenceExtract (inner ++ (backticks3 ++ post)) = some (trimWs inner) := by
  have hbt : backticks3 = '`' :: '`' :: '`' :: [] := rfl
  have hq : firstIdxOf backticks3 (inner ++ (backticks3 ++ post)) = some inner.length := by
    apply firstIdxOf_at backticks3 inner (backticks3 ++ post) (by simp [hbt]) (List.take_left _ _)
    rw [hbt]
    exact take_ne_pat_at inner (backticks3 ++ post) ('`' :: '`' :: []) hb
  rw [fenceExtract_eq _ inner.length hq, List.take_left]
  have hlead : wsLeadLen (inner ++ (backticks3 ++ post)) = wsLeadLen inner := by
    rw [wsLeadLen, wsLeadLen]
    by_cases hallws : ∀ c ∈ inner, isWsC c = true
    · rw [List.takeWhile_append_of_pos hallws, takeWhile_all hallws]
      have hbtp : backticks3 ++ post = '`' :: ('`' :: '`' :: post) := by rw [hbt]; rfl
      rw [hbtp, takeWhile_nil_head _ (by decide)]
      simp
    · push_neg at hallws
      obtain ⟨c, hc, hcw⟩ := hallws
      rw [takeWhile_append_conf _ ⟨c, hc, Bool.of_not_eq_true hcw⟩]
  rw [hlead]
  rcases trim_decomp inner with hall | ⟨L, M, R, hLMR, hLws, hRws, ⟨c0, M', hM0, hc0⟩, ⟨c1, M'', hM1, hc1⟩⟩
  · have htr : wsTrailLen inner = inner.length := by
      rw [wsTrailLen, takeWhile_all (by intro c hc; exact hall c (List.mem_reverse.mp hc)),
        List.length_reverse]
    have hz : inner.length - wsTrailLen inner = 0 := by omega
    rw [hz]
    have htrim : trimWs inner = [] := by
      rw [trimWs, dropWhile_eq_nil_of_all hall]
      simp
    rw [htrim]
    have htake : (inner ++ (backticks3 ++ post)).take 0 = [] := by simp
    rw [htake]
    simp
  · subst hLMR
    have htr : wsTrailLen (L ++ M ++ R) = R.length := by
      rw [wsTrailLen]
      rw [show (L ++ M ++ R).reverse = R.reverse ++ (M.reverse ++ L.reverse) by
        simp [List.reverse_append, List.append_assoc]]
      rw [List.takeWhile_append_of_pos (by intro c hc; exact hRws c (List.mem_reverse.mp hc))]
      rw [show M.reverse ++ L.reverse = c1 :: (M''.reverse ++ L.reverse) by
        rw [hM1]; simp [List.reverse_append]]
      rw [takeWhile_nil_head _ hc1]
      simp
    have hld : wsLeadLen (L ++ M ++ R) = L.length := by
      rw [wsLeadLen, List.append_assoc, List.takeWhile_append_of_pos hLws]
      rw [show M ++ R = c0 :: (M' ++ R) by rw [hM0]; rfl]
      rw [takeWhile_nil_head _ hc0]
      simp
    have hi : (L ++ M ++ R).length - wsTrailLen (L ++ M ++ R) = L.length + M.length := by
      rw [htr]
      simp only [List.length_append]
      omega
    have hMlen : 0 < M.length := by rw [hM0]; simp
    rw [hi, hld, Nat.min_eq_left (Nat.le_add_right _ _)]
    have htake2 : ((L ++ M ++ R) ++ (backticks3 ++ post)).take (L.length + M.length)
        = L ++ M := by
      rw [List.take_append_of_le_length (by simp only [List.length_append]; omega)]
      rw [List.append_assoc, List.take_append, List.take_left]
    rw [htake2, List.drop_left, trimWs_of_decomp L M R c0 c1 M' M'' hLws hRws hM0 hc0 hM1 hc1]

theorem unfence_fenced (inner post : List Char) (hb : ∀ c ∈ inner, c ≠ '`') :
    unfence (litFenceJson ++ (inner ++ (backticks3 ++ post))) = trimWs inner := by
  have hp : firstIdxOf litFenceJson (litFenceJson ++ (inner ++ (backticks3 ++ post))) = some 0 :=
    firstIdxOf_zero (by simp [litFenceJson]) (List.take_left _ _)
  unfold unfence
  rw [hp]
  show (match fenceExtract ((litFenceJson ++ (inner ++ (backticks3 ++ post))).drop (0 + 7)) with
    | some g => g
    | none => genericFence (litFenceJson ++ (inner ++ (backticks3 ++ post)))) = trimWs inner
  have hdrop : (litFenceJson ++ (inner ++ (backticks3 ++ post))).drop (0 + 7)
      = inner ++ (backticks3 ++ post) := by
    rw [show (0 + 7 : Nat) = litFenceJson.length by rfl]
    exact List.drop_left _ _
  rw [hdrop, fenceExtract_eq_trim inner post hb]

theorem unfence_bare (response : List Char) (hb : ∀ c ∈ response, c ≠ '`') :
    unfence response = response := by
  have h1 : firstIdxOf litFenceJson response = none := by
    have : litFenceJson = '`' :: "``json".data := rfl
    rw [this]
    exact firstIdxOf_none hb
  have h2 : firstIdxOf backticks3 response = none := by
    have : backticks3 = '`' :: "``".data := rfl
    rw [this]
    exact firstIdxOf_none hb
  unfold unfence genericFence
  rw [h1, h2]

theorem processChunks_abort {J : Type} (parse : List Char → Option J) :
    ∀ (rs1 : List (List Char)) (i : Nat) (response : List Char) (rs2 : List (List Char)),
    parse (unfence response) = none →
    ∃ e, processChunks parse i (rs1 ++ response :: rs2) = Except.error e := by
  intro rs1
  induction rs1 with
  | nil =>
    intro i r rs2 h
    refine ⟨"Failed to parse Claude response".data, ?_⟩
    simp only [List.nil_append, processChunks, parseClaudeResponse, h]
  | cons r0 rs1' ih =>
    intro i r rs2 h
    obtain ⟨e, he⟩ := ih (i + 1) r rs2 h
    cases hp : parseClaudeResponse parse r0 i with
    | ok x =>
      refine ⟨e, ?_⟩
      simp only [List.cons_append, processChunks, hp, List.append_eq]
      rw [he]
    | error e0 => exact ⟨e0, by simp only [List.cons_append, processChunks, hp]⟩

/-- C8: the response parser extracts the JSON payload whether the reply
wraps it in a ```json fenced block (the fenced text, whitespace-trimmed,
is handed to the JSON parser) or gives it bare (the whole reply is handed
over); a successfully parsed payload is returned with the chunk index, and
a reply whose selected payload is not valid JSON makes the parser throw
(the error value), which aborts the processing of the whole chunk list
wherever that chunk sits. -/
theorem claude_response_parsing {J : Type} (parse : List Char → Option J) (chunkIndex : Nat) :
    (∀ inner post, (∀ c ∈ inner, c ≠ '`') →
      unfence (litFenceJson ++ (inner ++ (backticks3 ++ post))) = trimWs inner) ∧
    (∀ response, (∀ c ∈ response, c ≠ '`') → unfence response = response) ∧
    (∀ response j, parse (unfence response) = some j →
      parseClaudeResponse parse response chunkIndex = Except.ok (j, chunkIndex)) ∧
    (∀ response, parse (unfence response) = none →
      parseClaudeResponse parse response chunkIndex
          = Except.error ("Failed to parse Claude response".data) ∧
      ∀ i rs1 rs2, ∃ e, processChunks parse i (rs1 ++ response :: rs2) = Except.error e) := by
  refine ⟨unfence_fenced, unfence_bare, ?_, ?_⟩
  · intro response j h
    simp only [parseClaudeResponse, h]
  · intro response h
    refine ⟨by simp only [parseClaudeResponse, h], ?_⟩
    intro i rs1 rs2
    exact processChunks_abort parse rs1 i response rs2 h

/-- Witness for C8 at a concrete parser and concrete replies. -/
theorem claude_response_parsing_witness :
    (unfence (litFenceJson ++ (" 42 ".data ++ (backticks3 ++ " trailing".data)))
        = trimWs (" 42 ".data)) ∧
    (unfence ("42".data) = "42".data) ∧
    (parseClaudeResponse (fun s => if s = "42".data then some 42 else none) ("42".data) 3
        = Except.ok (42, 3)) ∧
    (parseClaudeResponse (fun s => if s = "42".data then some 42 else none) ("oops".data) 3
        = Except.error ("Failed to parse Claude response".data)) ∧
    (∃ e, processChunks (fun s => if s = "42".data then some 42 else none) 0
        (["42".data] ++ "oops".data :: ["42".data]) = Except.error e) := by
  have h := claude_response_parsing (fun s => if s = "42".data then some 42 else none) 3
  have hbad := h.2.2.2 ("oops".data) (by decide)
  exact ⟨h.1 (" 42 ".data) (" trailing".data) (by decide),
    h.2.1 ("42".data) (by decide),
    h.2.2.1 ("42".data) 42 (by decide),
    hbad.1,
    hbad.2 0 ["42".data] ["42".data]⟩

theorem tryTotalAt_some_lit {cs : List Char} {v : Nat × Nat} (h : tryTotalAt cs = some v) :
    cs.take 19 = litTotal := by
  by_cases hl : cs.take 19 = litTotal
  · exact hl
  · simp [tryTotalAt, hl] at h

theorem tryTotalAt_ext (U x y : List Char) (hlen : 19 < U.length)
    (hex : ∃ c ∈ U.drop 19, isWsC c = false ∧ isDigitC c = false) :
    tryTotalAt (U ++ x) = tryTotalAt (U ++ y) := by
  have htakex : (U ++ x).take 19 = U.take 19 := List.take_append_of_le_length (by omega)
  have htakey : (U ++ y).take 19 = U.take 19 := List.take_append_of_le_length (by omega)
  have hdropx : (U ++ x).drop 19 = U.drop 19 ++ x := List.drop_append_of_le_length (by omega)
  have hdropy : (U ++ y).drop 19 = U.drop 19 ++ y := List.drop_append_of_le_length (by omega)
  obtain ⟨c, hcT, hcw, hcd⟩ := hex
  have hwx : (U.drop 19 ++ x).takeWhile isWsC = (U.drop 19).takeWhile isWsC :=
    takeWhile_append_conf x ⟨c, hcT, hcw⟩
  have hwy : (U.drop 19 ++ y).takeWhile isWsC = (U.drop 19).takeWhile isWsC :=
    takeWhile_append_conf y ⟨c, hcT, hcw⟩
  have hwlen : ((U.drop 19).takeWhile isWsC).length ≤ (U.drop 19).length := takeWhile_len_le _ _
  have hdwx : (U.drop 19 ++ x).drop ((U.drop 19).takeWhile isWsC).length
      = (U.drop 19).drop ((U.drop 19).takeWhile isWsC).length ++ x :=
    List.drop_append_of_le_length hwlen
  have hdwy : (U.drop 19 ++ y).drop ((U.drop 19).takeWhile isWsC).length
      = (U.drop 19).drop ((U.drop 19).takeWhile isWsC).length ++ y :=
    List.drop_append_of_le_length hwlen
  have hdd : (U.drop 19).drop ((U.drop 19).takeWhile isWsC).length = (U.drop 19).dropWhile isWsC :=
    drop_len_takeWhile _ _
  have hcdrop : c ∈ (U.drop 19).dropWhile isWsC := by
    have hsplit := List.takeWhile_append_dropWhile isWsC (U.drop 19)
    have hcT2 : c ∈ (U.drop 19).takeWhile isWsC ++ (U.drop 19).dropWhile isWsC := by
      rw [hsplit]; exact hcT
    rcases List.mem_append.mp hcT2 with h1 | h2
    · have := mem_takeWhile_pred h1
      rw [hcw] at this
      cases this
    · exact h2
  have hdx : ((U.drop 19).dropWhile isWsC ++ x).takeWhile isDigitC
      = ((U.drop 19).dropWhile isWsC).takeWhile isDigitC :=
    takeWhile_append_conf x ⟨c, hcdrop, hcd⟩
  have hdy : ((U.drop 19).dropWhile isWsC ++ y).takeWhile isDigitC
      = ((U.drop 19).dropWhile isWsC).takeWhile isDigitC :=
    takeWhile_append_conf y ⟨c, hcdrop, hcd⟩
  simp only [tryTotalAt, htakex, htakey, hdropx, hdropy, hwx, hwy, hdwx, hdwy, hdd, hdx, hdy]

theorem tryTotalAt_stable (X Z Z2 : List Char) (hX : X ≠ []) :
    tryTotalAt (X ++ litTotal ++ Z) = tryTotalAt (X ++ litTotal ++ Z2) := by
  have hXpos : 0 < X.length := List.length_pos.mpr hX
  have hlen : 19 < (X ++ litTotal).length := by
    rw [List.length_append]
    have : litTotal.length = 19 := rfl
    omega
  have hex : ∃ c ∈ (X ++ litTotal).drop 19, isWsC c = false ∧ isDigitC c = false := by
    refine ⟨'*', ?_, by decide, by decide⟩
    have hsplit : X ++ litTotal = (X ++ "**Total Messages:*".data) ++ ['*'] := by
      rw [show litTotal = "**Total Messages:*".data ++ ['*'] from rfl, List.append_assoc]
    rw [hsplit, List.drop_append_of_le_length (by
      rw [List.length_append]
      have : ("**Total Messages:*".data).length = 18 := rfl
      omega)]
    simp
  rw [List.append_assoc, List.append_assoc]
  exact tryTotalAt_ext (X ++ litTotal) Z Z2 hlen hex
    |>.trans (by rw [← List.append_assoc]) |>.symm
    |>.trans (by rw [← List.append_assoc]) |>.symm

theorem tryTotalAt_field (ds tail : List Char) (hne : ds ≠ [])
    (hall : ∀ c ∈ ds, isDigitC c = true) (htail : headNonDigit tail = true) :
    tryTotalAt (litTotal ++ ' ' :: (ds ++ tail)) = some (digitsToNat ds, 20 + ds.length) := by
  obtain ⟨d0, ds', hds⟩ := List.exists_cons_of_ne_nil hne
  have hd0 : isDigitC d0 = true := hall d0 (by rw [hds]; exact List.mem_cons_self _ _)
  have htake : (litTotal ++ ' ' :: (ds ++ tail)).take 19 = litTotal := by
    rw [show (19 : Nat) = litTotal.length from rfl]
    exact List.take_left _ _
  have hdrop : (litTotal ++ ' ' :: (ds ++ tail)).drop 19 = ' ' :: (ds ++ tail) := by
    rw [show (19 : Nat) = litTotal.length from rfl]
    exact List.drop_left _ _
  have hw : (' ' :: (ds ++ tail)).takeWhile isWsC = [' '] := by
    rw [List.takeWhile_cons_of_pos (by decide)]
    rw [show ds ++ tail = d0 :: (ds' ++ tail) by rw [hds]; rfl]
    rw [takeWhile_nil_head _ (digit_not_ws hd0)]
  have htw : tail.takeWhile isDigitC = [] := by
    cases tail with
    | nil => rfl
    | cons t0 tt =>
      have : isDigitC t0 = false := by
        simp only [headNonDigit, Bool.not_eq_true'] at htail
        exact htail
      exact takeWhile_nil_head _ this
  have hd : (ds ++ tail).takeWhile isDigitC = ds := by
    rw [List.takeWhile_append_of_pos hall, htw, List.append_nil]
  simp only [tryTotalAt]
  rw [htake, if_pos (rfl : litTotal = litTotal), hdrop, hw]
  rw [if_neg (show ¬ (([' '] : List Char).length = 0) by decide)]
  rw [show (' ' :: (ds ++ tail)).drop ([' '] : List Char).length = ds ++ tail from rfl]
  rw [hd]
  rw [if_neg (show ¬ (ds.length = 0) from fun h0 => hne (List.length_eq_zero.mp h0))]
  have harith : 19 + ([' '] : List Char).length + ds.length = 20 + ds.length := by
    norm_num
  rw [harith]

theorem drop_append3 (A B C : List Char) (i : Nat) (h : i ≤ A.length) :
    (A ++ B ++ C).drop i = A.drop i ++ B ++ C := by
  rw [List.drop_append_of_le_length (by rw [List.length_append]; omega),
    List.drop_append_of_le_length h]

theorem attempts_none_transfer (A Z Z2 : List Char)
    (hnone : ∀ i < A.length, tryTotalAt ((A ++ litTotal ++ Z).drop i) = none) :
    ∀ i < A.length, tryTotalAt ((A ++ litTotal ++ Z2).drop i) = none := by
  intro i hi
  have hXne : A.drop i ≠ [] := by
    have : (A.drop i).length = A.length - i := List.length_drop _ _
    intro h0
    rw [h0] at this
    simp at this
    omega
  rw [drop_append3 _ _ _ i (by omega)]
  rw [← tryTotalAt_stable (A.drop i) Z Z2 hXne]
  rw [← drop_append3 _ _ _ i (by omega)]
  exact hnone i hi

theorem headNonDigit_append (B X : List Char) (hX : headNonDigit X = true)
    (hB : headNonDigit B = true) : headNonDigit (B ++ X) = true := by
  cases B with
  | nil => simpa using hX
  | cons b bs => simpa [headNonDigit] using hB

theorem appendedBodies_snoc (dateOf : Nat → List Char) (fmt : Msg → List Char)
    (bs : List (List Msg)) (b : List Msg) (hbs : bs ≠ []) :
    appendedBodies dateOf fmt (bs ++ [b])
      = appendedBodies dateOf fmt bs ++ '\n' :: generateGroupedByDate dateOf fmt b := by
  induction bs with
  | nil => exact absurd rfl hbs
  | cons b0 bs' ih =>
    cases bs' with
    | nil => rfl
    | cons b1 bs'' =>
      have hne : b1 :: bs'' ≠ [] := by simp
      show generateGroupedByDate dateOf fmt b0 ++ '\n' :: appendedBodies dateOf fmt ((b1 :: bs'') ++ [b]) = _
      rw [ih hne]
      simp [appendedBodies]

/-- C2: appending N new messages to an export whose header's Total
Messages field parses with value k rewrites that field in place to k + N
(the final content's first Total Messages match reads k + N), refreshes
the two Last Run fields, appends the newly rendered content after the
existing body without touching it, and the rendered message blocks of the
resulting body — the batches ever written plus the new batch — number
exactly k + N, the new header count. -/
theorem append_count_invariant
    (oldContent A B B1 S1 B2 S2 bodyPre : List Char) (k : Nat)
    (oldBatches : List (List Msg)) (newMessages : List Msg)
    (dateOf : Nat → List Char) (fmt : Msg → List Char) (nowIso nowLoc : List Char)
    (hmsgs : newMessages ≠ [])
    (hfind : findTotal oldContent = some (A, k, B))
    (hlr : findField litLastRun (A ++ newTotalField (k + newMessages.length) ++ B)
        = some (A ++ newTotalField (k + newMessages.length) ++ B1, (), S1))
    (hlrl : findField litLastRunLocal
          ((A ++ newTotalField (k + newMessages.length) ++ B1) ++ (litLastRun ++ ' ' :: nowIso) ++ S1)
        = some (A ++ newTotalField (k + newMessages.length) ++ B2, (), S2))
    (hB2 : headNonDigit B2 = true)
    (hbody : S2 = bodyPre ++ appendedBodies dateOf fmt oldBatches)
    (hbatch : oldBatches ≠ [])
    (hcount : oldBatches.flatten.length = k) :
    appendMessagesToExport oldContent newMessages dateOf fmt nowIso nowLoc true
      = (some ((A ++ newTotalField (k + newMessages.length) ++ B2)
          ++ (litLastRunLocal ++ ' ' :: nowLoc) ++ S2
          ++ '\n' :: generateGroupedByDate dateOf fmt newMessages), newMessages.length) ∧
    readTotal ((A ++ newTotalField (k + newMessages.length) ++ B2)
        ++ (litLastRunLocal ++ ' ' :: nowLoc) ++ S2
        ++ '\n' :: generateGroupedByDate dateOf fmt newMessages)
      = some (k + newMessages.length) ∧
    (A ++ newTotalField (k + newMessages.length) ++ B2)
        ++ (litLastRunLocal ++ ' ' :: nowLoc) ++ S2
        ++ '\n' :: generateGroupedByDate dateOf fmt newMessages
      = (A ++ newTotalField (k + newMessages.length) ++ B2)
        ++ (litLastRunLocal ++ ' ' :: nowLoc)
        ++ (bodyPre ++ appendedBodies dateOf fmt (oldBatches ++ [newMessages])) ∧
    sectionMsgCounts dateOf newMessages = newMessages.length ∧
    oldBatches.flatten.length + sectionMsgCounts dateOf newMessages
      = k + newMessages.length := by
  have hN0 : ¬ (newMessages.length = 0) := fun h0 => hmsgs (List.length_eq_zero.mp h0)
  refine ⟨?_, ?_, ?_, sectionMsgCounts_eq dateOf newMessages, ?_⟩
  · simp only [appendMessagesToExport, if_neg hN0, hfind, replaceField, hlr, hlrl, if_true]
  · have hfinal2 : (A ++ newTotalField (k + newMessages.length) ++ B2)
          ++ (litLastRunLocal ++ ' ' :: nowLoc) ++ S2
          ++ '\n' :: generateGroupedByDate dateOf fmt newMessages
        = A ++ (litTotal ++ ' ' :: (natDigits (k + newMessages.length)
            ++ (B2 ++ ((litLastRunLocal ++ ' ' :: nowLoc)
              ++ (S2 ++ '\n' :: generateGroupedByDate dateOf fmt newMessages))))) := by
      simp [newTotalField, List.append_assoc]
    rw [hfinal2]
    obtain ⟨hnone, ⟨len, hat, hBdef⟩, hAcat⟩ := scanFind_decomp tryTotalAt oldContent A k B hfind
    have hlit : (oldContent.drop A.length).take 19 = litTotal := tryTotalAt_some_lit hat
    have hshape : oldContent = A ++ litTotal ++ (oldContent.drop A.length).drop 19 := by
      conv_lhs => rw [← hAcat]
      rw [List.append_assoc]
      congr 1
      conv_lhs => rw [← List.take_append_drop 19 (oldContent.drop A.length)]
      rw [hlit]
    have hnone2 : ∀ i < A.length,
        tryTotalAt ((A ++ litTotal ++ (oldContent.drop A.length).drop 19).drop i) = none := by
      intro i hi
      rw [← hshape]
      exact hnone i hi
    have htrans := attempts_none_transfer A ((oldContent.drop A.length).drop 19)
      (' ' :: (natDigits (k + newMessages.length)
        ++ (B2 ++ ((litLastRunLocal ++ ' ' :: nowLoc)
          ++ (S2 ++ '\n' :: generateGroupedByDate dateOf fmt newMessages))))) hnone2
    have hREST : headNonDigit (B2 ++ ((litLastRunLocal ++ ' ' :: nowLoc)
        ++ (S2 ++ '\n' :: generateGroupedByDate dateOf fmt newMessages))) = true := by
      apply headNonDigit_append _ _ _ hB2
      rfl
    have hfieldAt := tryTotalAt_field (natDigits (k + newMessages.length))
      (B2 ++ ((litLastRunLocal ++ ' ' :: nowLoc)
        ++ (S2 ++ '\n' :: generateGroupedByDate dateOf fmt newMessages)))
      (natDigits_ne_nil _) (natDigits_all_digit _) hREST
    have hYne : litTotal ++ ' ' :: (natDigits (k + newMessages.length)
        ++ (B2 ++ ((litLastRunLocal ++ ' ' :: nowLoc)
          ++ (S2 ++ '\n' :: generateGroupedByDate dateOf fmt newMessages)))) ≠ [] := by
      simp [litTotal]
    have htrans2 : ∀ i < A.length, tryTotalAt ((A ++ (litTotal ++ ' ' :: (natDigits (k + newMessages.length)
        ++ (B2 ++ ((litLastRunLocal ++ ' ' :: nowLoc)
          ++ (S2 ++ '\n' :: generateGroupedByDate dateOf fmt newMessages)))))).drop i) = none := by
      intro i hi
      rw [← List.append_assoc]
      exact htrans i hi
    have hskip := scanFind_skip tryTotalAt A
      (litTotal ++ ' ' :: (natDigits (k + newMessages.length)
        ++ (B2 ++ ((litLastRunLocal ++ ' ' :: nowLoc)
          ++ (S2 ++ '\n' :: generateGroupedByDate dateOf fmt newMessages)))))
      (digitsToNat (natDigits (k + newMessages.length)))
      (20 + (natDigits (k + newMessages.length)).length)
      hYne hfieldAt htrans2
    rw [readTotal, findTotal, hskip]
    simp [digitsToNat_natDigits]
  · rw [hbody, appendedBodies_snoc dateOf fmt oldBatches newMessages hbatch]
    simp [List.append_assoc]
  · rw [hcount, sectionMsgCounts_eq]

/-- Witness for C2 at a concrete export file, one old batch of two
messages and one appended message. -/
theorem append_count_invariant_witness :
    appendMessagesToExport
        ("# Teams Chat Export for RAG\n\n**Total Messages:** 2\n**Last Run:** 2025-01-01T00:00:00.000Z\n**Last Run (Local):** 1/1/2025\n\n---\n\n".data
          ++ generateGroupedByDate (fun _ => "1/1/2025".data) (fun _ => "**U**\nhi\n".data)
              [Msg.mk 1 1, Msg.mk 2 2])
        [Msg.mk 3 3] (fun _ => "1/1/2025".data) (fun _ => "**U**\nhi\n".data)
        ("2025-02-02T00:00:00.000Z".data) ("2/2/2025".data) true
      = (some (("# Teams Chat Export for RAG\n\n".data ++ newTotalField 3
            ++ "\n**Last Run:** 2025-02-02T00:00:00.000Z\n".data)
          ++ (litLastRunLocal ++ ' ' :: "2/2/2025".data)
          ++ ("\n\n---\n\n".data ++ appendedBodies (fun _ => "1/1/2025".data)
              (fun _ => "**U**\nhi\n".data) [[Msg.mk 1 1, Msg.mk 2 2]])
          ++ '\n' :: generateGroupedByDate (fun _ => "1/1/2025".data)
              (fun _ => "**U**\nhi\n".data) [Msg.mk 3 3]), 1) ∧
    readTotal (("# Teams Chat Export for RAG\n\n".data ++ newTotalField 3
          ++ "\n**Last Run:** 2025-02-02T00:00:00.000Z\n".data)
        ++ (litLastRunLocal ++ ' ' :: "2/2/2025".data)
        ++ ("\n\n---\n\n".data ++ appendedBodies (fun _ => "1/1/2025".data)
            (fun _ => "**U**\nhi\n".data) [[Msg.mk 1 1, Msg.mk 2 2]])
        ++ '\n' :: generateGroupedByDate (fun _ => "1/1/2025".data)
            (fun _ => "**U**\nhi\n".data) [Msg.mk 3 3])
      = some 3 ∧
    ("# Teams Chat Export for RAG\n\n".data ++ newTotalField 3
          ++ "\n**Last Run:** 2025-02-02T00:00:00.000Z\n".data)
        ++ (litLastRunLocal ++ ' ' :: "2/2/2025".data)
        ++ ("\n\n---\n\n".data ++ appendedBodies (fun _ => "1/1/2025".data)
            (fun _ => "**U**\nhi\n".data) [[Msg.mk 1 1, Msg.mk 2 2]])
        ++ '\n' :: generateGroupedByDate (fun _ => "1/1/2025".data)
            (fun _ => "**U**\nhi\n".data) [Msg.mk 3 3]
      = ("# Teams Chat Export for RAG\n\n".data ++ newTotalField 3
          ++ "\n**Last Run:** 2025-02-02T00:00:00.000Z\n".data)
        ++ (litLastRunLocal ++ ' ' :: "2/2/2025".data)
        ++ ("\n\n---\n\n".data ++ appendedBodies (fun _ => "1/1/2025".data)
            (fun _ => "**U**\nhi\n".data) [[Msg.mk 1 1, Msg.mk 2 2], [Msg.mk 3 3]]) ∧
    sectionMsgCounts (fun _ => "1/1/2025".data) [Msg.mk 3 3] = 1 ∧
    ([[Msg.mk 1 1, Msg.mk 2 2]] : List (List Msg)).flatten.length
        + sectionMsgCounts (fun _ => "1/1/2025".data) [Msg.mk 3 3] = 3 := by
  have h := append_count_invariant
    ("# Teams Chat Export for RAG\n\n**Total Messages:** 2\n**Last Run:** 2025-01-01T00:00:00.000Z\n**Last Run (Local):** 1/1/2025\n\n---\n\n".data
      ++ generateGroupedByDate (fun _ => "1/1/2025".data) (fun _ => "**U**\nhi\n".data)
          [Msg.mk 1 1, Msg.mk 2 2])
    ("# Teams Chat Export for RAG\n\n".data)
    ("\n**Last Run:** 2025-01-01T00:00:00.000Z\n**Last Run (Local):** 1/1/2025\n\n---\n\n".data
      ++ generateGroupedByDate (fun _ => "1/1/2025".data) (fun _ => "**U**\nhi\n".data)
          [Msg.mk 1 1, Msg.mk 2 2])
    ("\n".data)
    ("\n**Last Run (Local):** 1/1/2025\n\n---\n\n".data
      ++ generateGroupedByDate (fun _ => "1/1/2025".data) (fun _ => "**U**\nhi\n".data)
          [Msg.mk 1 1, Msg.mk 2 2])
    ("\n**Last Run:** 2025-02-02T00:00:00.000Z\n".data)
    ("\n\n---\n\n".data
      ++ generateGroupedByDate (fun _ => "1/1/2025".data) (fun _ => "**U**\nhi\n".data)
          [Msg.mk 1 1, Msg.mk 2 2])
    ("\n\n---\n\n".data) 2
    [[Msg.mk 1 1, Msg.mk 2 2]] [Msg.mk 3 3]
    (fun _ => "1/1/2025".data) (fun _ => "**U**\nhi\n".data)
    ("2025-02-02T00:00:00.000Z".data) ("2/2/2025".data)
    (by decide) (by rfl) (by rfl) (by rfl) (by rfl) (by rfl)
    (by decide) (by rfl)
  exact h
